import Mathlib

/-! # `Switch::deque<T>` (src/switch_deque.h)

A shallow embedding of the bounded ring buffer of `src/switch_deque.h`.

* The object state is the record `deque T`; the backing store `A` is a list
  whose length is the allocated length (`nullptr` is the empty list).
* `uint32_t` arithmetic is arithmetic on `Nat` reduced modulo `U32`; `size_t`
  arithmetic is reduced modulo `U64`.
* An operation whose C++ execution has undefined behaviour (a slot access
  outside the backing store, or `%` by a zero `capacity`) returns `none`.
* `new T[n]` and `T()` produce `default`.
* The compile-time test
  `is_destructible<T> && !is_trivially_destructible<T>` of `clear` is the
  Boolean parameter `dtor`.
-/

namespace Switch

/-- Number of values of a `uint32_t`. -/
abbrev U32 : Nat := 4294967296

/-- Number of values of a `size_t`. -/
abbrev U64 : Nat := 18446744073709551616

/-- Data members of `deque` (lines 47-53). -/
structure deque (T : Type) where
  maxCapacity : Nat
  capacity : Nat
  A : List T
  backIdx : Nat
  frontIdx : Nat
  cnt : Nat
deriving DecidableEq, Repr

/-- Data member `idx` of `deque::iterator` (lines 15-18); the `container`
reference is passed to each operation. -/
structure iterator where
  idx : Nat
deriving DecidableEq, Repr

/-- Outcome of the checked accessor: the `std::out_of_range` exception or a
reference to a slot. -/
inductive Access (T : Type) where
  | out_of_range : Access T
  | ref : T → Access T
deriving DecidableEq, Repr

namespace deque

variable {T : Type}

/-- `prev` (lines 55-58): `(idx + (capacity - 1)) % capacity` on `uint32_t`. -/
def prev (d : deque T) (idx : Nat) : Option Nat :=
  if d.capacity = 0 then none
  else some ((idx + (d.capacity + U32 - 1) % U32) % U32 % d.capacity)

/-- `next` (lines 60-63): `(idx + 1) % capacity` on `uint32_t`. -/
def next (d : deque T) (idx : Nat) : Option Nat :=
  if d.capacity = 0 then none
  else some ((idx + 1) % U32 % d.capacity)

/-- The `while (cnt)` loop of `clear` (lines 182-188); the first argument is
the value of `cnt` on entry. -/
def clearLoop [Inhabited T] : Nat → deque T → Option (deque T)
  | 0, d => some d
  | n + 1, d =>
    if d.frontIdx < d.A.length then
      (d.next d.frontIdx).bind fun f =>
        clearLoop n { d with cnt := n, A := d.A.set d.frontIdx default, frontIdx := f }
    else none

/-- `clear` (lines 178-195). -/
def clear [Inhabited T] (dtor : Bool) (d : deque T) : Option (deque T) :=
  (if dtor then clearLoop d.cnt d else some { d with cnt := 0 }).map fun d1 =>
    { d1 with frontIdx := 0, backIdx := 0, capacity := d1.maxCapacity }

/-- `resetTo` (lines 214-226). -/
def resetTo [Inhabited T] (dtor : Bool) (newCapacity : Nat) (d : deque T) :
    Option (deque T) :=
  (if newCapacity > d.maxCapacity then
      some { d with maxCapacity := newCapacity, A := List.replicate newCapacity default }
    else clear dtor d).map fun d1 => { d1 with capacity := newCapacity }

/-- `deque(const uint32_t max)` (lines 135-146). -/
def new [Inhabited T] (max : Nat) : deque T :=
  { maxCapacity := max, capacity := max, A := List.replicate max default,
    backIdx := 0, frontIdx := 0, cnt := 0 }

/-- `empty` (lines 228-231). -/
def empty (d : deque T) : Bool := d.cnt == 0

/-- `max_size` (lines 233-236). -/
def max_size (d : deque T) : Nat := d.capacity

/-- `size` (lines 238-241). -/
def size (d : deque T) : Nat := d.cnt

/-- `front` (lines 243-251). -/
def front (d : deque T) : Option T := d.A[d.frontIdx]?

/-- `back` (lines 253-261). -/
def back (d : deque T) : Option T := (d.prev d.backIdx).bind fun i => d.A[i]?

/-- `operator[]` (lines 279-287); `idx` is a `size_t`. -/
def index (d : deque T) (idx : Nat) : Option T :=
  if d.capacity = 0 then none
  else d.A[(d.frontIdx + idx) % U64 % d.capacity]?

/-- `at` (lines 263-277); `idx` is a `size_t`. -/
def at_ (d : deque T) (idx : Nat) : Option (Access T) :=
  if idx > d.cnt then some Access.out_of_range
  else (d.index idx).map Access.ref

/-- `push_back` (lines 289-303). -/
def push_back (d : deque T) (v : T) : Option (deque T) :=
  if d.backIdx < d.A.length then
    (d.next d.backIdx).map fun b =>
      { d with
        A := d.A.set d.backIdx v
        backIdx := b
        cnt := if (d.cnt + 1) % U32 > d.capacity then d.capacity else (d.cnt + 1) % U32 }
  else none

/-- `push_front` (lines 305-319). -/
def push_front (d : deque T) (v : T) : Option (deque T) :=
  (d.prev d.frontIdx).bind fun f =>
    if f < d.A.length then
      some { d with
        frontIdx := f
        A := d.A.set f v
        cnt := if (d.cnt + 1) % U32 > d.capacity then d.capacity else (d.cnt + 1) % U32 }
    else none

/-- `pop_back` (lines 321-325). -/
def pop_back (d : deque T) : Option (deque T) :=
  (d.prev d.backIdx).map fun b => { d with backIdx := b, cnt := (d.cnt + U32 - 1) % U32 }

/-- `pop_front` (lines 327-331). -/
def pop_front (d : deque T) : Option (deque T) :=
  (d.next d.frontIdx).map fun f => { d with frontIdx := f, cnt := (d.cnt + U32 - 1) % U32 }

/-- The loop `for (auto &&v : in) push_back(v);` (lines 130-131), also used
for any run of `push_back` calls. -/
def pushAll (d : deque T) (vs : List T) : Option (deque T) :=
  vs.foldlM push_back d

/-- `deque(const std::initializer_list<T> &&in)` (lines 126-132).  The member
initialisers leave `capacity` unset; it is written by `resetTo` before it is
read, and starts as `0` here. -/
def fromList [Inhabited T] (dtor : Bool) (vs : List T) : Option (deque T) :=
  (resetTo dtor (vs.length % U32)
      { maxCapacity := 0, capacity := 0, A := [], backIdx := 0, frontIdx := 0, cnt := 0 }).bind
    fun d => pushAll d vs

/-- The loop of `operator==` (lines 205-209); the first argument is the number
of iterations left, the second the loop variable `i`. -/
def eqLoop [DecidableEq T] (a o : deque T) : Nat → Nat → Option Bool
  | 0, _ => some true
  | n + 1, i =>
    if a.capacity = 0 then none
    else
      match a.A[(a.frontIdx + i) % U32 % a.capacity]?,
            o.A[(o.frontIdx + i) % U32 % a.capacity]? with
      | some x, some y => if x ≠ y then some false else eqLoop a o n (i + 1)
      | _, _ => none

/-- `operator==` (lines 197-212): `a == o`. -/
def eq [DecidableEq T] (a o : deque T) : Option Bool :=
  if a.cnt ≠ o.cnt then some false else eqLoop a o a.cnt 0

/-- One element-copy loop of `copyImpl`, `for (i = start; i != stop; ++i)
A[i] = o.A[i];` (lines 83-84, 88-89, 93-94): the first argument is the number of
iterations, `(stop - start) mod 2^32`, the second the loop variable. -/
def copyRange (src : List T) : Nat → Nat → List T → Option (List T)
  | 0, _, dst => some dst
  | n + 1, i, dst =>
    match src[i]? with
    | some x => if i < dst.length then copyRange src n ((i + 1) % U32) (dst.set i x) else none
    | none => none

/-- `copyImpl` (lines 65-96): the new state of `*this`. -/
def copyImpl [Inhabited T] (dtor : Bool) (self o : deque T) : Option (deque T) :=
  (clear dtor self).bind fun s0 =>
    let s1 := { s0 with capacity := o.capacity }
    let s2 :=
      if s1.maxCapacity ≠ o.maxCapacity then
        { s1 with maxCapacity := o.maxCapacity, A := List.replicate o.maxCapacity default }
      else s1
    let s3 := { s2 with frontIdx := o.frontIdx, backIdx := o.backIdx, cnt := o.cnt }
    let upto := (s3.frontIdx + s3.cnt) % U32
    if upto > s3.capacity then
      (copyRange o.A ((s3.capacity + U32 - s3.frontIdx) % U32) s3.frontIdx s3.A).bind fun A1 =>
        (copyRange o.A ((upto + U32 - s3.capacity) % U32) 0 A1).map fun A2 =>
          { s3 with A := A2 }
    else
      (copyRange o.A ((upto + U32 - s3.frontIdx) % U32) s3.frontIdx s3.A).map fun A1 =>
        { s3 with A := A1 }

/-- `moveImpl` (lines 98-113): the new states of `*this` and of `o`. -/
def moveImpl [Inhabited T] (dtor : Bool) (self o : deque T) : Option (deque T × deque T) :=
  (clear dtor self).map fun _ =>
    ({ maxCapacity := o.maxCapacity, capacity := o.capacity, A := o.A,
       frontIdx := o.frontIdx, backIdx := o.backIdx, cnt := o.cnt },
     { o with A := [], cnt := 0, frontIdx := 0, backIdx := 0 })

/-- `deque(const deque &o)` (lines 154-158); `capacity` is unset by the member
initialisers and written by `clear` before it is read. -/
def copy [Inhabited T] (dtor : Bool) (o : deque T) : Option (deque T) :=
  copyImpl dtor
    { maxCapacity := 0, capacity := 0, A := [], backIdx := 0, frontIdx := 0, cnt := 0 } o

/-- `operator=(const deque &o)` (lines 166-170). -/
def copyAssign [Inhabited T] (dtor : Bool) (self o : deque T) : Option (deque T) :=
  copyImpl dtor self o

/-- `deque(deque &&o)` (lines 148-152); `maxCapacity` and `capacity` are unset
by the member initialisers and overwritten by `moveImpl`. -/
def move [Inhabited T] (dtor : Bool) (o : deque T) : Option (deque T × deque T) :=
  moveImpl dtor
    { maxCapacity := 0, capacity := 0, A := [], backIdx := 0, frontIdx := 0, cnt := 0 } o

/-- `operator=(deque &&o)` (lines 160-164). -/
def moveAssign [Inhabited T] (dtor : Bool) (self o : deque T) : Option (deque T × deque T) :=
  moveImpl dtor self o

/-- `begin` (lines 116-119). -/
def begin_ (d : deque T) : iterator := { idx := d.frontIdx }

/-- `end` (lines 121-124). -/
def end_ (d : deque T) : iterator := { idx := d.backIdx }

end deque

namespace iterator

variable {T : Type}

/-- `operator++` (lines 20-24). -/
def inc (c : deque T) (it : iterator) : Option iterator :=
  (c.next it.idx).map fun i => { idx := i }

/-- `operator*` (lines 26-29). -/
def deref (c : deque T) (it : iterator) : Option T := c.A[it.idx]?

/-- `operator!=` (lines 31-34). -/
def ne (it o : iterator) : Bool := it.idx != o.idx

/-- `operator+` (lines 36-39); `n` is an `int32_t`, converted to `uint32_t`
for the addition. -/
def add (c : deque T) (it : iterator) (n : Int) : Option iterator :=
  if c.capacity = 0 then none
  else some { idx := (it.idx + (n % (U32 : Int)).toNat) % U32 % c.capacity }

/-- `operator-` (lines 41-44); the source does not use `n`. -/
def sub (c : deque T) (it : iterator) (_n : Int) : Option iterator :=
  if c.capacity = 0 then none
  else some { idx := (it.idx + (c.capacity + U32 - 1) % U32) % U32 % c.capacity }

end iterator

namespace deque

variable {T : Type}

/-- The traversal `for (it = begin(); it != end(); ++it) visit(*it)`: the
elements visited, with `fuel` bounding the number of loop tests. -/
def traverse (d : deque T) : Nat → iterator → Option (List T)
  | 0, _ => none
  | fuel + 1, it =>
    if it.ne d.end_ then
      (it.deref d).bind fun v =>
        (it.inc d).bind fun it1 => (traverse d fuel it1).map fun vs => v :: vs
    else some []

/-- The loop `n` times `{ read front(); pop_front(); }`: the values read and
the final state. -/
def drain : Nat → deque T → Option (List T × deque T)
  | 0, d => some ([], d)
  | n + 1, d =>
    d.front.bind fun v =>
      d.pop_front.bind fun d1 =>
        (drain n d1).map fun r => (v :: r.1, r.2)

/-- The logical contents `operator[](0)`, ..., `operator[](size() - 1)`. -/
def contents (d : deque T) : List (Option T) :=
  (List.range d.cnt).map d.index

end deque

end Switch

/-! ## State predicates and reachable states -/

namespace Switch

namespace deque

variable {T : Type}

/-- Invariant 1 of the data model: `count <= capacity <= maxCapacity`. -/
def Inv1 (d : deque T) : Prop := d.cnt ≤ d.capacity ∧ d.capacity ≤ d.maxCapacity

/-- Invariant 3 of the data model: `backIdx == (frontIdx + count) mod capacity`. -/
def Inv3 (d : deque T) : Prop := d.backIdx = (d.frontIdx + d.cnt) % d.capacity

instance (d : deque T) : Decidable (Inv1 d) := by
  unfold Inv1
  exact inferInstance

instance (d : deque T) : Decidable (Inv3 d) := by
  unfold Inv3
  exact inferInstance

/-- Index bounds: both indices are below `capacity`, and `capacity` is at most
`maxCapacity`, the length of the backing store. -/
def Bounds (d : deque T) : Prop :=
  d.frontIdx < d.capacity ∧ d.backIdx < d.capacity ∧ d.capacity ≤ d.maxCapacity ∧
    d.maxCapacity = d.A.length

instance (d : deque T) : Decidable (Bounds d) := by
  unfold Bounds
  exact inferInstance

/-- States reached from `new(n)`, `n >= 1`, by `push_back`, `push_front`,
`pop_back` and `pop_front` (the pops with `size() > 0`), `clear`, and
`resetTo(m)` with `m >= 1`; `n` and `m` are `uint32_t` values. -/
inductive Reach [Inhabited T] (dtor : Bool) : deque T → Prop
  | new (n : Nat) : 1 ≤ n → n < U32 → Reach dtor (deque.new n)
  | push_back (d e : deque T) (v : T) : Reach dtor d → d.push_back v = some e → Reach dtor e
  | push_front (d e : deque T) (v : T) : Reach dtor d → d.push_front v = some e → Reach dtor e
  | pop_back (d e : deque T) : Reach dtor d → 0 < d.size → d.pop_back = some e → Reach dtor e
  | pop_front (d e : deque T) : Reach dtor d → 0 < d.size → d.pop_front = some e → Reach dtor e
  | clear (d e : deque T) : Reach dtor d → deque.clear dtor d = some e → Reach dtor e
  | resetTo (d e : deque T) (m : Nat) :
      Reach dtor d → 1 ≤ m → m < U32 → deque.resetTo dtor m d = some e → Reach dtor e

/-- States reached from `new(n)`, `n >= 1`, by `push_back` and `push_front`
called with `size() < capacity`, `pop_back` and `pop_front` called with
`size() > 0`, and `clear`. -/
inductive ReachGuarded [Inhabited T] (dtor : Bool) : deque T → Prop
  | new (n : Nat) : 1 ≤ n → n < U32 → ReachGuarded dtor (deque.new n)
  | push_back (d e : deque T) (v : T) :
      ReachGuarded dtor d → d.size < d.capacity → d.push_back v = some e → ReachGuarded dtor e
  | push_front (d e : deque T) (v : T) :
      ReachGuarded dtor d → d.size < d.capacity → d.push_front v = some e → ReachGuarded dtor e
  | pop_back (d e : deque T) :
      ReachGuarded dtor d → 0 < d.size → d.pop_back = some e → ReachGuarded dtor e
  | pop_front (d e : deque T) :
      ReachGuarded dtor d → 0 < d.size → d.pop_front = some e → ReachGuarded dtor e
  | clear (d e : deque T) :
      ReachGuarded dtor d → deque.clear dtor d = some e → ReachGuarded dtor e

/-- Sample state: a wrapped buffer of capacity 3 in a store of 4 slots, holding
5, 7 at slots 2, 0. -/
def wrapped3 : deque Nat :=
  { maxCapacity := 4, capacity := 3, A := [7, 0, 5, 0], backIdx := 1, frontIdx := 2, cnt := 2 }

/-- Sample state: `new(3)` after `push_back(1)`, `push_front(2)` and
`resetTo(5)`. -/
def grown5 : deque Nat :=
  { maxCapacity := 5, capacity := 5, A := [0, 0, 0, 0, 0], backIdx := 1, frontIdx := 2, cnt := 2 }

/-- Sample state: the full buffer built from {1, 2}. -/
def full2 : deque Nat :=
  { maxCapacity := 2, capacity := 2, A := [1, 2], backIdx := 0, frontIdx := 0, cnt := 2 }

end deque

end Switch

/-! ## Lemmas on runs of `push_back` and of `pop_front` -/

namespace Switch

namespace deque

variable {T : Type}

/-- Taking one slot past a written slot. -/
theorem take_succ_set (A : List T) (k : Nat) (v : T) (hk : k < A.length) :
    (A.set k v).take (k + 1) = A.take k ++ [v] := by
  rw [List.set_eq_take_append_cons_drop, if_pos hk, List.take_append_eq_append_take]
  simp [List.length_take, Nat.min_eq_left (Nat.le_of_lt hk)]

/-- State reached from a partly filled, unwrapped buffer by a run of `push_back` that fits. -/
theorem pushAll_fill (m c f : Nat) (hc : c < U32) :
    ∀ (vs : List T) (A : List T) (k : Nat), A.length = c → k + vs.length ≤ c →
      pushAll { maxCapacity := m, capacity := c, A := A, backIdx := k % c, frontIdx := f, cnt := k } vs
        = some { maxCapacity := m, capacity := c, A := A.take k ++ vs ++ A.drop (k + vs.length),
                 backIdx := (k + vs.length) % c, frontIdx := f, cnt := k + vs.length } := by
  intro vs
  induction vs with
  | nil => intro A k _ _; simp [pushAll]
  | cons v vs ih =>
    intro A k hA hk
    simp only [List.length_cons] at hk
    have hkc : k < c := by omega
    have hc0 : c ≠ 0 := by omega
    have h1 : (k + 1) % U32 = k + 1 := Nat.mod_eq_of_lt (by omega)
    have hstep : push_back { maxCapacity := m, capacity := c, A := A, backIdx := k % c, frontIdx := f, cnt := k } v
        = some { maxCapacity := m, capacity := c, A := A.set k v, backIdx := (k + 1) % c, frontIdx := f, cnt := k + 1 } := by
      simp [push_back, next, Nat.mod_eq_of_lt hkc, hA, hkc, hc0, h1]
      omega
    have := ih (A.set k v) (k + 1) (by simpa using hA) (by omega)
    simp only [pushAll] at this ⊢
    rw [List.foldlM_cons, hstep]
    simp only [Option.bind_eq_bind, Option.some_bind]
    rw [this, take_succ_set A k v (by omega), List.drop_set_of_lt v A (by omega)]
    simp [Nat.add_assoc, Nat.add_comm 1]

/-- Decrement of a positive `uint32_t`. -/
theorem u32_pred (n : Nat) (h0 : 0 < n) (h : n < U32) : (n + U32 - 1) % U32 = n - 1 := by
  unfold U32 at *
  omega

/-- A run of `front(); pop_front();` on an unwrapped window reads the slots in order. -/
theorem drain_read (m c b : Nat) (A : List T) (hA : A.length = c) (hc : c < U32) :
    ∀ (k j n : Nat), j + k ≤ c → k ≤ n → n < U32 →
      drain k { maxCapacity := m, capacity := c, A := A, backIdx := b, frontIdx := j % c, cnt := n }
        = some ((A.drop j).take k,
            { maxCapacity := m, capacity := c, A := A, backIdx := b, frontIdx := (j + k) % c,
              cnt := n - k }) := by
  intro k
  induction k with
  | zero => intro j n _ _ _; simp [drain]
  | succ k ih =>
    intro j n hj hn hn32
    have hjc : j < c := by omega
    have hc0 : c ≠ 0 := by omega
    have hjA : j < A.length := by omega
    have h1 : (j + 1) % U32 = j + 1 := Nat.mod_eq_of_lt (by omega)
    have h2 : (n + U32 - 1) % U32 = n - 1 := u32_pred n (by omega) hn32
    have := ih (j + 1) (n - 1) (by omega) (by omega) (by omega)
    simp only [drain, front, pop_front, next, Nat.mod_eq_of_lt hjc, if_neg hc0, h1, h2,
      List.getElem?_eq_getElem hjA, Option.some_bind, Option.map_some', this]
    have e1 : j + 1 + k = j + (k + 1) := by omega
    have e2 : n - 1 - k = n - (k + 1) := by omega
    rw [List.drop_eq_getElem_cons hjA, List.take_succ_cons, e1, e2]

/-- State after `new(c)` and a run of `push_back` that fits. -/
theorem new_pushAll [Inhabited T] (c : Nat) (vs : List T) (hc : c < U32) (hn : vs.length ≤ c) :
    (new c).pushAll vs
      = some { maxCapacity := c, capacity := c,
               A := vs ++ List.replicate (c - vs.length) default,
               backIdx := vs.length % c, frontIdx := 0, cnt := vs.length } := by
  have h := pushAll_fill c c 0 hc vs (List.replicate c default) 0 (by simp) (by omega)
  simpa [new] using h

/-- The destructor loop of `clear` ends, keeps `maxCapacity`, and leaves
`cnt == 0` when entered with the value of `cnt`. -/
theorem clearLoop_ok [Inhabited T] :
    ∀ (n : Nat) (d : deque T),
      (n = 0 ∨ (d.frontIdx < d.capacity ∧ d.capacity ≤ d.A.length)) →
      ∃ e, clearLoop n d = some e ∧ e.maxCapacity = d.maxCapacity ∧ (n = d.cnt → e.cnt = 0) := by
  intro n
  induction n with
  | zero => intro d _; exact ⟨d, rfl, rfl, fun h => h.symm⟩
  | succ n ih =>
    intro d h
    rcases h with h | ⟨hf, hs⟩
    · omega
    · have hc0 : d.capacity ≠ 0 := by omega
      have hfA : d.frontIdx < d.A.length := by omega
      have hlt : (d.frontIdx + 1) % U32 % d.capacity < d.capacity :=
        Nat.mod_lt _ (by omega)
      obtain ⟨e, he, hm, hcnt⟩ := ih
        { d with cnt := n, A := d.A.set d.frontIdx default,
                 frontIdx := (d.frontIdx + 1) % U32 % d.capacity }
        (Or.inr ⟨hlt, by simpa using hs⟩)
      refine ⟨e, ?_, hm, fun _ => hcnt rfl⟩
      simp only [clearLoop, if_pos hfA, next, if_neg hc0, Option.some_bind]
      exact he

/-- An element-copy loop that reaches the end of the source store before its
last iteration has no result. -/
theorem copyRange_past_end (src : List T) (hsrc : src.length < U32) :
    ∀ (n i : Nat) (dst : List T), i ≤ src.length → src.length < i + n →
      copyRange src n i dst = none := by
  intro n
  induction n with
  | zero => intro i dst h1 h2; omega
  | succ n ih =>
    intro i dst h1 h2
    rcases Nat.eq_or_lt_of_le h1 with h | h
    · have : src[i]? = none := List.getElem?_eq_none (by omega)
      simp only [copyRange, this]
    · have hs : (i + 1) % U32 = i + 1 := Nat.mod_eq_of_lt (by omega)
      simp only [copyRange, List.getElem?_eq_getElem h, hs]
      split
      · exact ih (i + 1) _ (by omega) (by omega)
      · rfl

/-- A `uint32_t` sum that wraps once. -/
theorem u32_add_wrap (f c : Nat) (hov : U32 ≤ f + c) (h : f + c < 2 * U32) :
    (f + c) % U32 = f + c - U32 := by
  unfold U32 at *
  omega

/-- The `uint32_t` distance from `f` to a wrapped `f + c`. -/
theorem u32_wrap_span (f c : Nat) (hov : U32 ≤ f + c) (hf : f < U32) (hc : c < U32) :
    (f + c - U32 + U32 - f) % U32 = c := by
  unfold U32 at *
  omega

/-- Copy construction from a wrapped source whose `frontIdx + cnt` does not fit
a `uint32_t` has no result: `upto` wraps, the single-range branch is taken and
its loop runs past the end of the store. -/
theorem copy_u32_wrap [Inhabited T] (dtor : Bool) (o : deque T)
    (hA : o.A.length = o.capacity) (h32 : o.capacity < U32) (hf : o.frontIdx < o.capacity)
    (hcnt : o.cnt ≤ o.capacity) (hov : U32 ≤ o.frontIdx + o.cnt) :
    copy dtor o = none := by
  have hup : (o.frontIdx + o.cnt) % U32 = o.frontIdx + o.cnt - U32 :=
    u32_add_wrap _ _ hov (by omega)
  have hn : (o.frontIdx + o.cnt - U32 + U32 - o.frontIdx) % U32 = o.cnt :=
    u32_wrap_span _ _ hov (by omega) (by omega)
  have hnot : ¬ (o.frontIdx + o.cnt - U32 > o.capacity) := by omega
  have hclear : clear dtor
      ({ maxCapacity := 0, capacity := 0, A := [], backIdx := 0, frontIdx := 0, cnt := 0 } :
        deque T)
      = some { maxCapacity := 0, capacity := 0, A := [], backIdx := 0, frontIdx := 0,
               cnt := 0 } := by
    cases dtor <;> rfl
  have hrange : ∀ dst : List T, copyRange o.A o.cnt o.frontIdx dst = none := fun dst =>
    copyRange_past_end o.A (by omega) o.cnt o.frontIdx dst (by omega) (by omega)
  by_cases hm : (0 : Nat) ≠ o.maxCapacity
  · simp only [copy, copyImpl, hclear, Option.some_bind, if_pos hm]
    rw [hup, if_neg hnot, hn, hrange]
    rfl
  · simp only [copy, copyImpl, hclear, Option.some_bind, if_neg hm]
    rw [hup, if_neg hnot, hn, hrange]
    rfl

/-- What a defined `push_back` did. -/
theorem push_back_inv {d e : deque T} {v : T} (h : d.push_back v = some e) :
    d.backIdx < d.A.length ∧ d.capacity ≠ 0 ∧
    e = { d with
          A := d.A.set d.backIdx v
          backIdx := (d.backIdx + 1) % U32 % d.capacity
          cnt := if (d.cnt + 1) % U32 > d.capacity then d.capacity else (d.cnt + 1) % U32 } := by
  unfold push_back next at h
  by_cases hb : d.backIdx < d.A.length
  · by_cases hc : d.capacity = 0
    · simp [hb, hc] at h
    · rw [if_pos hb, if_neg hc] at h
      simp only [Option.map_some', Option.some.injEq] at h
      exact ⟨hb, hc, h.symm⟩
  · rw [if_neg hb] at h
    exact absurd h (by simp)

/-- What a defined `push_front` did. -/
theorem push_front_inv {d e : deque T} {v : T} (h : d.push_front v = some e) :
    d.capacity ≠ 0 ∧
    (d.frontIdx + (d.capacity + U32 - 1) % U32) % U32 % d.capacity < d.A.length ∧
    e = { d with
          frontIdx := (d.frontIdx + (d.capacity + U32 - 1) % U32) % U32 % d.capacity
          A := d.A.set ((d.frontIdx + (d.capacity + U32 - 1) % U32) % U32 % d.capacity) v
          cnt := if (d.cnt + 1) % U32 > d.capacity then d.capacity else (d.cnt + 1) % U32 } := by
  unfold push_front prev at h
  by_cases hc : d.capacity = 0
  · simp [hc] at h
  · rw [if_neg hc] at h
    simp only [Option.some_bind] at h
    by_cases hf : (d.frontIdx + (d.capacity + U32 - 1) % U32) % U32 % d.capacity < d.A.length
    · rw [if_pos hf] at h
      simp only [Option.some.injEq] at h
      exact ⟨hc, hf, h.symm⟩
    · rw [if_neg hf] at h
      exact absurd h (by simp)

/-- What a defined `pop_back` did. -/
theorem pop_back_inv {d e : deque T} (h : d.pop_back = some e) :
    d.capacity ≠ 0 ∧
    e = { d with
          backIdx := (d.backIdx + (d.capacity + U32 - 1) % U32) % U32 % d.capacity
          cnt := (d.cnt + U32 - 1) % U32 } := by
  unfold pop_back prev at h
  by_cases hc : d.capacity = 0
  · simp [hc] at h
  · rw [if_neg hc] at h
    simp only [Option.map_some', Option.some.injEq] at h
    exact ⟨hc, h.symm⟩

/-- What a defined `pop_front` did. -/
theorem pop_front_inv {d e : deque T} (h : d.pop_front = some e) :
    d.capacity ≠ 0 ∧
    e = { d with
          frontIdx := (d.frontIdx + 1) % U32 % d.capacity
          cnt := (d.cnt + U32 - 1) % U32 } := by
  unfold pop_front next at h
  by_cases hc : d.capacity = 0
  · simp [hc] at h
  · rw [if_neg hc] at h
    simp only [Option.map_some', Option.some.injEq] at h
    exact ⟨hc, h.symm⟩

/-- The destructor loop of `clear` changes neither `maxCapacity`, `capacity`,
`backIdx` nor the length of the store, and keeps `frontIdx` below a non-zero
`capacity`. -/
theorem clearLoop_frame [Inhabited T] :
    ∀ (n : Nat) (d e : deque T), clearLoop n d = some e →
      e.maxCapacity = d.maxCapacity ∧ e.capacity = d.capacity ∧ e.backIdx = d.backIdx ∧
        e.A.length = d.A.length ∧ (n = d.cnt → e.cnt = 0) := by
  intro n
  induction n with
  | zero =>
    intro d e h
    simp only [clearLoop, Option.some.injEq] at h
    subst h
    exact ⟨rfl, rfl, rfl, rfl, fun h => h.symm⟩
  | succ n ih =>
    intro d e h
    unfold clearLoop next at h
    by_cases hf : d.frontIdx < d.A.length
    · by_cases hc : d.capacity = 0
      · simp [hf, hc] at h
      · rw [if_pos hf, if_neg hc] at h
        simp only [Option.some_bind] at h
        obtain ⟨h1, h2, h3, h4, h5⟩ := ih _ _ h
        refine ⟨h1, h2, h3, ?_, fun _ => h5 rfl⟩
        simpa using h4
    · rw [if_neg hf] at h
      exact absurd h (by simp)

/-- What a defined `clear` did. -/
theorem clear_inv [Inhabited T] {dtor : Bool} {d e : deque T} (h : clear dtor d = some e) :
    e.maxCapacity = d.maxCapacity ∧ e.capacity = d.maxCapacity ∧ e.frontIdx = 0 ∧
      e.backIdx = 0 ∧ e.cnt = 0 ∧ e.A.length = d.A.length := by
  unfold clear at h
  cases dtor with
  | false =>
    simp only [Bool.false_eq_true, if_false, Option.map_some', Option.some.injEq] at h
    subst h
    exact ⟨rfl, rfl, rfl, rfl, rfl, rfl⟩
  | true =>
    simp only [if_true] at h
    cases hl : clearLoop d.cnt d with
    | none => rw [hl] at h; exact absurd h (by simp)
    | some d1 =>
      rw [hl] at h
      simp only [Option.map_some', Option.some.injEq] at h
      obtain ⟨h1, _, _, h4, h5⟩ := clearLoop_frame _ _ _ hl
      subst h
      exact ⟨h1, h1, rfl, rfl, h5 rfl, h4⟩

/-- What a defined `resetTo` did: the growing path or the reusing path. -/
theorem resetTo_inv [Inhabited T] {dtor : Bool} {m : Nat} {d e : deque T}
    (h : resetTo dtor m d = some e) :
    (d.maxCapacity < m ∧
      e = { d with maxCapacity := m, A := List.replicate m default, capacity := m }) ∨
    (m ≤ d.maxCapacity ∧ ∃ c, clear dtor d = some c ∧ e = { c with capacity := m }) := by
  unfold resetTo at h
  by_cases hm : m > d.maxCapacity
  · rw [if_pos hm] at h
    simp only [Option.map_some', Option.some.injEq] at h
    exact Or.inl ⟨hm, h.symm⟩
  · rw [if_neg hm] at h
    cases hc : clear dtor d with
    | none => rw [hc] at h; exact absurd h (by simp)
    | some c =>
      rw [hc] at h
      simp only [Option.map_some', Option.some.injEq] at h
      exact Or.inr ⟨Nat.le_of_not_gt hm, c, rfl, h.symm⟩

/-- On a state within its index bounds every mutator has a result. -/
theorem ops_defined [Inhabited T] (dtor : Bool) (d : deque T) (v : T) (m : Nat)
    (h : Bounds d) :
    (d.push_back v).isSome ∧ (d.push_front v).isSome ∧ d.pop_back.isSome ∧
      d.pop_front.isSome ∧ (clear dtor d).isSome ∧ (resetTo dtor m d).isSome := by
  obtain ⟨hf, hb, hcm, hmA⟩ := h
  have hc0 : d.capacity ≠ 0 := by omega
  have hclear : (clear dtor d).isSome := by
    cases dtor with
    | false => rfl
    | true =>
      obtain ⟨e, he, _, _⟩ := clearLoop_ok d.cnt d (Or.inr ⟨hf, by omega⟩)
      simp [clear, he]
  refine ⟨?_, ?_, ?_, ?_, hclear, ?_⟩
  · have : d.backIdx < d.A.length := by omega
    simp [push_back, next, this, hc0]
  · have : (d.frontIdx + (d.capacity + U32 - 1) % U32) % U32 % d.capacity < d.A.length :=
      Nat.lt_of_lt_of_le (Nat.mod_lt _ (by omega)) (by omega)
    simp only [push_front, prev, if_neg hc0, Option.some_bind, if_pos this, Option.isSome_some]
  · simp [pop_back, prev, hc0]
  · simp [pop_front, next, hc0]
  · unfold resetTo
    by_cases hm : m > d.maxCapacity
    · simp [hm]
    · rw [if_neg hm]
      obtain ⟨c, hc⟩ := Option.isSome_iff_exists.mp hclear
      simp [hc]

/-- The fields `copyImpl` takes from the source. -/
theorem copyImpl_inv [Inhabited T] {dtor : Bool} {s o e : deque T}
    (h : copyImpl dtor s o = some e) :
    e.maxCapacity = o.maxCapacity ∧ e.capacity = o.capacity ∧ e.frontIdx = o.frontIdx ∧
      e.backIdx = o.backIdx ∧ e.cnt = o.cnt := by
  unfold copyImpl at h
  cases hc : clear dtor s with
  | none => rw [hc] at h; exact absurd h (by simp)
  | some s0 =>
    rw [hc] at h
    simp only [Option.some_bind] at h
    by_cases hm : s0.maxCapacity ≠ o.maxCapacity
    · simp only [if_pos hm] at h
      split at h
      · simp only [Option.bind_eq_some, Option.map_eq_some'] at h
        obtain ⟨_, _, _, _, rfl⟩ := h
        exact ⟨rfl, rfl, rfl, rfl, rfl⟩
      · simp only [Option.map_eq_some'] at h
        obtain ⟨_, _, rfl⟩ := h
        exact ⟨rfl, rfl, rfl, rfl, rfl⟩
    · simp only [if_neg hm] at h
      have hm' : s0.maxCapacity = o.maxCapacity := not_not.mp hm
      split at h
      · simp only [Option.bind_eq_some, Option.map_eq_some'] at h
        obtain ⟨_, _, _, _, rfl⟩ := h
        exact ⟨hm', rfl, rfl, rfl, rfl⟩
      · simp only [Option.map_eq_some'] at h
        obtain ⟨_, _, rfl⟩ := h
        exact ⟨hm', rfl, rfl, rfl, rfl⟩

/-- What a defined `moveImpl` did. -/
theorem moveImpl_inv [Inhabited T] {dtor : Bool} {s o : deque T} {p : deque T × deque T}
    (h : moveImpl dtor s o = some p) :
    p.1 = { maxCapacity := o.maxCapacity, capacity := o.capacity, A := o.A,
            frontIdx := o.frontIdx, backIdx := o.backIdx, cnt := o.cnt } ∧
    p.2 = { o with A := [], cnt := 0, frontIdx := 0, backIdx := 0 } := by
  unfold moveImpl at h
  simp only [Option.map_eq_some'] at h
  obtain ⟨_, _, rfl⟩ := h
  exact ⟨rfl, rfl⟩

/-- The state built by the initializer-list constructor from a non-empty list. -/
theorem fromList_nonempty [Inhabited T] (dtor : Bool) (vs : List T) (hne : vs ≠ [])
    (hlen : vs.length < U32) :
    fromList dtor vs
      = some { maxCapacity := vs.length, capacity := vs.length, A := vs, backIdx := 0,
               frontIdx := 0, cnt := vs.length } := by
  have hpos : 0 < vs.length := List.length_pos.mpr hne
  have hfrom : fromList dtor vs = (new vs.length).pushAll vs := by
    simp [fromList, resetTo, new, Nat.mod_eq_of_lt hlen, hpos]
  have hnew := new_pushAll vs.length vs hlen (Nat.le_refl _)
  simp only [Nat.sub_self, List.replicate_zero, List.append_nil, Nat.mod_self] at hnew
  exact hfrom.trans hnew

/-- Every reachable state is within its index bounds. -/
theorem reach_bounds_aux [Inhabited T] (dtor : Bool) (d : deque T) (h : Reach dtor d) :
    Bounds d := by
  induction h with
  | new n h1 _ => exact ⟨h1, h1, Nat.le_refl _, by simp [new]⟩
  | push_back d e v _ he ih =>
    obtain ⟨hf, hb, hcm, hmA⟩ := ih
    obtain ⟨_, hc, rfl⟩ := push_back_inv he
    exact ⟨hf, Nat.mod_lt _ (Nat.pos_of_ne_zero hc), hcm, by simpa using hmA⟩
  | push_front d e v _ he ih =>
    obtain ⟨hf, hb, hcm, hmA⟩ := ih
    obtain ⟨hc, _, rfl⟩ := push_front_inv he
    exact ⟨Nat.mod_lt _ (Nat.pos_of_ne_zero hc), hb, hcm, by simpa using hmA⟩
  | pop_back d e _ _ he ih =>
    obtain ⟨hf, hb, hcm, hmA⟩ := ih
    obtain ⟨hc, rfl⟩ := pop_back_inv he
    exact ⟨hf, Nat.mod_lt _ (Nat.pos_of_ne_zero hc), hcm, hmA⟩
  | pop_front d e _ _ he ih =>
    obtain ⟨hf, hb, hcm, hmA⟩ := ih
    obtain ⟨hc, rfl⟩ := pop_front_inv he
    exact ⟨Nat.mod_lt _ (Nat.pos_of_ne_zero hc), hb, hcm, hmA⟩
  | clear d e _ he ih =>
    obtain ⟨hf, hb, hcm, hmA⟩ := ih
    obtain ⟨h1, h2, h3, h4, _, h6⟩ := clear_inv he
    exact ⟨by omega, by omega, by omega, by omega⟩
  | resetTo d e m _ hm1 _ he ih =>
    obtain ⟨hf, hb, hcm, hmA⟩ := ih
    rcases resetTo_inv he with ⟨hm, rfl⟩ | ⟨hm, c, hc, rfl⟩
    · exact ⟨by show d.frontIdx < m; omega, by show d.backIdx < m; omega, Nat.le_refl _,
        by simp⟩
    · obtain ⟨h1, h2, h3, h4, _, h6⟩ := clear_inv hc
      exact ⟨by show c.frontIdx < m; omega, by show c.backIdx < m; omega,
        by show m ≤ c.maxCapacity; omega, by show c.maxCapacity = c.A.length; omega⟩

/-- The result of `push_back` when its slot exists and `capacity` is not zero. -/
theorem push_back_eq (d : deque T) (v : T) (hb : d.backIdx < d.A.length)
    (hc : d.capacity ≠ 0) :
    d.push_back v = some { d with
      A := d.A.set d.backIdx v
      backIdx := (d.backIdx + 1) % U32 % d.capacity
      cnt := if (d.cnt + 1) % U32 > d.capacity then d.capacity else (d.cnt + 1) % U32 } := by
  unfold push_back next
  rw [if_pos hb, if_neg hc]
  rfl

/-- The result of `push_front` when its slot exists and `capacity` is not zero. -/
theorem push_front_eq (d : deque T) (v : T) (hc : d.capacity ≠ 0)
    (hf : (d.frontIdx + (d.capacity + U32 - 1) % U32) % U32 % d.capacity < d.A.length) :
    d.push_front v = some { d with
      frontIdx := (d.frontIdx + (d.capacity + U32 - 1) % U32) % U32 % d.capacity
      A := d.A.set ((d.frontIdx + (d.capacity + U32 - 1) % U32) % U32 % d.capacity) v
      cnt := if (d.cnt + 1) % U32 > d.capacity then d.capacity else (d.cnt + 1) % U32 } := by
  unfold push_front prev
  rw [if_neg hc]
  simp only [Option.some_bind]
  rw [if_pos hf]

/-- The result of `pop_back` when `capacity` is not zero. -/
theorem pop_back_eq (d : deque T) (hc : d.capacity ≠ 0) :
    d.pop_back = some { d with
      backIdx := (d.backIdx + (d.capacity + U32 - 1) % U32) % U32 % d.capacity
      cnt := (d.cnt + U32 - 1) % U32 } := by
  unfold pop_back prev
  rw [if_neg hc]
  rfl

/-- The result of `pop_front` when `capacity` is not zero. -/
theorem pop_front_eq (d : deque T) (hc : d.capacity ≠ 0) :
    d.pop_front = some { d with
      frontIdx := (d.frontIdx + 1) % U32 % d.capacity
      cnt := (d.cnt + U32 - 1) % U32 } := by
  unfold pop_front next
  rw [if_neg hc]
  rfl

/-- Remainder of a number below twice the modulus. -/
theorem mod_lt_two (a c : Nat) (h : a < 2 * c) : a % c = if a < c then a else a - c := by
  split
  · next h1 => exact Nat.mod_eq_of_lt h1
  · next h1 =>
    rw [Nat.mod_eq_sub_mod (Nat.le_of_not_lt h1)]
    exact Nat.mod_eq_of_lt (by omega)

/-- The index computed by `prev` when `idx + capacity` fits a `uint32_t`: one
position back, cyclically. -/
theorem prev_char (c x : Nat) (hc : 1 ≤ c) (hx : x < c) (hc32 : c < U32)
    (h : x + c ≤ U32) :
    ∃ j, (x + (c + U32 - 1) % U32) % U32 % c = j ∧ j < c ∧
      (j + 1 = x ∨ (x = 0 ∧ j + 1 = c)) := by
  have h1 : (c + U32 - 1) % U32 = c - 1 := u32_pred c hc (by omega)
  have h2 : (x + (c - 1)) % U32 = x + (c - 1) := Nat.mod_eq_of_lt (by omega)
  rw [h1, h2, mod_lt_two _ _ (by omega)]
  refine ⟨_, rfl, ?_, ?_⟩ <;> split <;> omega

/-- The index computed by `next` for an index below `capacity < 2^32`: one
position on, cyclically. -/
theorem next_char (c x : Nat) (hx : x < c) (hc : c < U32) :
    ∃ j, (x + 1) % U32 % c = j ∧ j < c ∧ (j = x + 1 ∨ (x + 1 = c ∧ j = 0)) := by
  have h1 : (x + 1) % U32 = x + 1 := Nat.mod_eq_of_lt (by omega)
  rw [h1, mod_lt_two _ _ (by omega)]
  refine ⟨_, rfl, ?_, ?_⟩ <;> split <;> omega

/-- The physical offset `operator[]` computes for a logical position
`i <= capacity`. -/
theorem slot_char (c f i : Nat) (hf : f < c) (hi : i ≤ c) (hc : c < U32) :
    ∃ s, (f + i) % U64 % c = s ∧ s < c ∧ (s = f + i ∨ s + c = f + i) := by
  have h1 : (f + i) % U64 = f + i := Nat.mod_eq_of_lt (by unfold U32 at hc; unfold U64; omega)
  rw [h1, mod_lt_two _ _ (by omega)]
  refine ⟨_, rfl, ?_, ?_⟩ <;> split <;> omega

/-- `push_front` on a buffer of capacity at most `2^31`: the new front index, the
new front element, the size and the shift of the previous elements. -/
theorem push_front_spec (d : deque T) (v : T) (hc1 : 1 ≤ d.capacity)
    (hcap : d.capacity ≤ 2147483648) (hf : d.frontIdx < d.capacity)
    (hcnt : d.cnt ≤ d.capacity) (hs : d.capacity ≤ d.A.length) :
    ∃ e, d.push_front v = some e ∧
      e.frontIdx = (d.frontIdx + d.capacity - 1) % d.capacity ∧
      e.front = some v ∧ e.index 0 = some v ∧
      e.size = min (d.size + 1) d.capacity ∧
      ∀ i, 1 ≤ i → i < e.size → e.index i = d.index (i - 1) := by
  have hc0 : d.capacity ≠ 0 := by omega
  have hc32 : d.capacity < U32 := by unfold U32; omega
  obtain ⟨j, hj, hjc, hjv⟩ := prev_char d.capacity d.frontIdx hc1 hf hc32 (by unfold U32; omega)
  have hj' : (d.frontIdx + d.capacity - 1) % d.capacity = j := by
    rw [mod_lt_two _ _ (by omega)]
    split <;> omega
  have hcnt1 : (d.cnt + 1) % U32 = d.cnt + 1 := Nat.mod_eq_of_lt (by unfold U32; omega)
  have hjlt : j < d.A.length := by omega
  have hpush := push_front_eq d v hc0 (by rw [hj]; exact hjlt)
  rw [hj, hcnt1] at hpush
  refine ⟨_, hpush, hj'.symm, ?_, ?_, ?_, ?_⟩
  · simp only [front]
    rw [List.getElem?_set_self hjlt]
  · obtain ⟨s, hs0, _, hsv⟩ := slot_char d.capacity j 0 hjc (by omega) hc32
    have : s = j := by omega
    subst this
    simp only [index, if_neg hc0]
    rw [hs0, List.getElem?_set_self hjlt]
  · simp only [size]
    split <;> omega
  · intro i hi1 hi
    have hic : i < d.capacity := by
      simp only [size] at hi
      split at hi <;> omega
    obtain ⟨s, hs1, hsc, hsv⟩ := slot_char d.capacity j i hjc (by omega) hc32
    obtain ⟨t, ht1, htc, htv⟩ := slot_char d.capacity d.frontIdx (i - 1) hf (by omega) hc32
    have hst : s = t := by omega
    have hne : j ≠ s := by omega
    simp only [index, if_neg hc0]
    rw [hs1, ht1, List.getElem?_set_ne hne, hst]

/-- A sum of an index below `c` and a count of at most `c`, reduced modulo `c`. -/
theorem ring_char (c f k : Nat) (hf : f < c) (hk : k ≤ c) :
    ∃ s, (f + k) % c = s ∧ s < c ∧ (s = f + k ∨ s + c = f + k) := by
  rw [mod_lt_two _ _ (by omega)]
  refine ⟨_, rfl, ?_, ?_⟩ <;> split <;> omega

/-- Round trips on a buffer of capacity at most `2^31` that is not full:
`push_back` then `pop_back`, and `push_front` then `pop_front`, restore
`cnt`, `frontIdx`, `backIdx` and every logical element. -/
theorem push_pop_round_trip (d : deque T) (v : T) (hc1 : 1 ≤ d.capacity)
    (hcap : d.capacity ≤ 2147483648) (hf : d.frontIdx < d.capacity) (h3 : Inv3 d)
    (hsz : d.size < d.capacity) (hs : d.capacity ≤ d.A.length) :
    (∃ e1 e2, d.push_back v = some e1 ∧ e1.pop_back = some e2 ∧
      e2.cnt = d.cnt ∧ e2.frontIdx = d.frontIdx ∧ e2.backIdx = d.backIdx ∧
      ∀ i, i < d.size → e2.index i = d.index i) ∧
    (∃ e1 e2, d.push_front v = some e1 ∧ e1.pop_front = some e2 ∧
      e2.cnt = d.cnt ∧ e2.frontIdx = d.frontIdx ∧ e2.backIdx = d.backIdx ∧
      ∀ i, i < d.size → e2.index i = d.index i) := by
  have hc0 : d.capacity ≠ 0 := by omega
  have hc32 : d.capacity < U32 := by unfold U32; omega
  simp only [size] at hsz
  have hcnt1 : (d.cnt + 1) % U32 = d.cnt + 1 := Nat.mod_eq_of_lt (by unfold U32; omega)
  have hcnt2 : (if d.cnt + 1 > d.capacity then d.capacity else d.cnt + 1) = d.cnt + 1 :=
    if_neg (by omega)
  have hcnt3 : (d.cnt + 1 + U32 - 1) % U32 = d.cnt := by
    rw [u32_pred _ (by omega) (by unfold U32; omega)]
    rfl
  obtain ⟨b, hb, hbc, hbv⟩ := ring_char d.capacity d.frontIdx d.cnt hf (by omega)
  have hback : d.backIdx = b := h3.trans hb
  constructor
  · obtain ⟨b1, hb1, hb1c, hb1v⟩ := next_char d.capacity b hbc hc32
    obtain ⟨b2, hb2, _, hb2v⟩ := prev_char d.capacity b1 hc1 hb1c hc32 (by unfold U32; omega)
    have hb2b : b2 = b := by omega
    have hpush := push_back_eq d v (by omega) hc0
    rw [hback, hb1, hcnt1, hcnt2] at hpush
    refine ⟨_, _, hpush, pop_back_eq _ hc0, ?_, rfl, ?_, ?_⟩
    · exact hcnt3
    · show (b1 + (d.capacity + U32 - 1) % U32) % U32 % d.capacity = d.backIdx
      rw [hb2, hb2b, hback]
    · intro i hi
      have hi' : i < d.cnt := hi
      obtain ⟨s, hs1, _, hsv⟩ := slot_char d.capacity d.frontIdx i hf (by omega) hc32
      have hne : b ≠ s := by omega
      simp only [index, if_neg hc0]
      rw [hs1, List.getElem?_set_ne hne]
  · obtain ⟨f1, hf1, hf1c, hf1v⟩ :=
      prev_char d.capacity d.frontIdx hc1 hf hc32 (by unfold U32; omega)
    obtain ⟨f2, hf2, _, hf2v⟩ := next_char d.capacity f1 hf1c hc32
    have hf2f : f2 = d.frontIdx := by omega
    have hpush := push_front_eq d v hc0 (by rw [hf1]; omega)
    rw [hf1, hcnt1, hcnt2] at hpush
    refine ⟨_, _, hpush, pop_front_eq _ hc0, ?_, ?_, rfl, ?_⟩
    · exact hcnt3
    · show (f1 + 1) % U32 % d.capacity = d.frontIdx
      rw [hf2, hf2f]
    · intro i hi
      have hi' : i < d.cnt := hi
      obtain ⟨s, hs1, _, hsv⟩ := slot_char d.capacity d.frontIdx i hf (by omega) hc32
      have hne : f1 ≠ s := by omega
      simp only [index, if_neg hc0]
      show (d.A.set f1 v)[((f1 + 1) % U32 % d.capacity + i) % U64 % d.capacity]? = _
      rw [hf2, hf2f, hs1, List.getElem?_set_ne hne]

/-- Shape of the states of the guarded regime: one fixed capacity, equal to
`maxCapacity` and to the length of the store, with indices and count in
range. -/
theorem reachGuarded_shape [Inhabited T] (dtor : Bool) (d : deque T)
    (h : ReachGuarded dtor d) :
    d.capacity = d.maxCapacity ∧ d.maxCapacity = d.A.length ∧ 1 ≤ d.capacity ∧
      d.capacity < U32 ∧ d.frontIdx < d.capacity ∧ d.backIdx < d.capacity ∧
      d.cnt ≤ d.capacity := by
  induction h with
  | new n h1 h2 => exact ⟨rfl, by simp [new], h1, h2, h1, h1, Nat.zero_le _⟩
  | push_back d e v _ hsz he ih =>
    obtain ⟨h1, h2, h3, h4, h5, h6, h7⟩ := ih
    obtain ⟨_, hc, rfl⟩ := push_back_inv he
    refine ⟨h1, by simpa using h2, h3, h4, h5, Nat.mod_lt _ (by omega), ?_⟩
    show (if (d.cnt + 1) % U32 > d.capacity then d.capacity else (d.cnt + 1) % U32)
      ≤ d.capacity
    split <;> omega
  | push_front d e v _ hsz he ih =>
    obtain ⟨h1, h2, h3, h4, h5, h6, h7⟩ := ih
    obtain ⟨hc, _, rfl⟩ := push_front_inv he
    refine ⟨h1, by simpa using h2, h3, h4, Nat.mod_lt _ (by omega), h6, ?_⟩
    show (if (d.cnt + 1) % U32 > d.capacity then d.capacity else (d.cnt + 1) % U32)
      ≤ d.capacity
    split <;> omega
  | pop_back d e _ hsz he ih =>
    obtain ⟨h1, h2, h3, h4, h5, h6, h7⟩ := ih
    obtain ⟨hc, rfl⟩ := pop_back_inv he
    have hs : 0 < d.cnt := hsz
    refine ⟨h1, h2, h3, h4, h5, Nat.mod_lt _ (by omega), ?_⟩
    show (d.cnt + U32 - 1) % U32 ≤ d.capacity
    rw [u32_pred _ hs (by omega)]
    omega
  | pop_front d e _ hsz he ih =>
    obtain ⟨h1, h2, h3, h4, h5, h6, h7⟩ := ih
    obtain ⟨hc, rfl⟩ := pop_front_inv he
    have hs : 0 < d.cnt := hsz
    refine ⟨h1, h2, h3, h4, Nat.mod_lt _ (by omega), h6, ?_⟩
    show (d.cnt + U32 - 1) % U32 ≤ d.capacity
    rw [u32_pred _ hs (by omega)]
    omega
  | clear d e _ he ih =>
    obtain ⟨h1, h2, h3, h4, h5, h6, h7⟩ := ih
    obtain ⟨k1, k2, k3, k4, k5, k6⟩ := clear_inv he
    exact ⟨by omega, by omega, by omega, by omega, by omega, by omega, by omega⟩

/-- In the guarded regime on a capacity of at most `2^31` the ring relation
`backIdx == (frontIdx + cnt) mod capacity` holds. -/
theorem reachGuarded_inv3 [Inhabited T] (dtor : Bool) (d : deque T)
    (h : ReachGuarded dtor d) : d.capacity ≤ 2147483648 → Inv3 d := by
  induction h with
  | new n h1 h2 =>
    intro _
    show 0 = (0 + 0) % n
    simp
  | push_back d e v hd hsz he ih =>
    intro hcap0
    obtain ⟨h1, h2, h3, h4, h5, h6, h7⟩ := reachGuarded_shape dtor d hd
    obtain ⟨_, hc, rfl⟩ := push_back_inv he
    have hcap : d.capacity ≤ 2147483648 := hcap0
    have h3' : d.backIdx = (d.frontIdx + d.cnt) % d.capacity := ih hcap
    have hs : d.cnt < d.capacity := hsz
    have hcnt1 : (d.cnt + 1) % U32 = d.cnt + 1 := Nat.mod_eq_of_lt (by omega)
    obtain ⟨b, hb, hbc, hbv⟩ := ring_char d.capacity d.frontIdx d.cnt h5 h7
    obtain ⟨b1, hb1, hb1c, hb1v⟩ := next_char d.capacity d.backIdx h6 h4
    obtain ⟨t, ht, htc, htv⟩ := ring_char d.capacity d.frontIdx (d.cnt + 1) h5 (by omega)
    show (d.backIdx + 1) % U32 % d.capacity
      = (d.frontIdx + (if (d.cnt + 1) % U32 > d.capacity then d.capacity
          else (d.cnt + 1) % U32)) % d.capacity
    rw [hcnt1, if_neg (by omega), hb1, ht]
    omega
  | push_front d e v hd hsz he ih =>
    intro hcap0
    obtain ⟨h1, h2, h3, h4, h5, h6, h7⟩ := reachGuarded_shape dtor d hd
    obtain ⟨hc, _, rfl⟩ := push_front_inv he
    have hcap : d.capacity ≤ 2147483648 := hcap0
    have h3' : d.backIdx = (d.frontIdx + d.cnt) % d.capacity := ih hcap
    have hs : d.cnt < d.capacity := hsz
    have hcnt1 : (d.cnt + 1) % U32 = d.cnt + 1 := Nat.mod_eq_of_lt (by omega)
    obtain ⟨b, hb, hbc, hbv⟩ := ring_char d.capacity d.frontIdx d.cnt h5 h7
    obtain ⟨f1, hf1, hf1c, hf1v⟩ :=
      prev_char d.capacity d.frontIdx h3 h5 h4 (by unfold U32; omega)
    obtain ⟨t, ht, htc, htv⟩ := ring_char d.capacity f1 (d.cnt + 1) hf1c (by omega)
    show d.backIdx
      = ((d.frontIdx + (d.capacity + U32 - 1) % U32) % U32 % d.capacity +
          (if (d.cnt + 1) % U32 > d.capacity then d.capacity
            else (d.cnt + 1) % U32)) % d.capacity
    rw [hcnt1, if_neg (by omega), hf1, ht]
    omega
  | pop_back d e hd hsz he ih =>
    intro hcap0
    obtain ⟨h1, h2, h3, h4, h5, h6, h7⟩ := reachGuarded_shape dtor d hd
    obtain ⟨hc, rfl⟩ := pop_back_inv he
    have hcap : d.capacity ≤ 2147483648 := hcap0
    have h3' : d.backIdx = (d.frontIdx + d.cnt) % d.capacity := ih hcap
    have hs : 0 < d.cnt := hsz
    obtain ⟨b, hb, hbc, hbv⟩ := ring_char d.capacity d.frontIdx d.cnt h5 h7
    obtain ⟨b1, hb1, hb1c, hb1v⟩ :=
      prev_char d.capacity d.backIdx h3 h6 h4 (by unfold U32; omega)
    obtain ⟨t, ht, htc, htv⟩ := ring_char d.capacity d.frontIdx (d.cnt - 1) h5 (by omega)
    show (d.backIdx + (d.capacity + U32 - 1) % U32) % U32 % d.capacity
      = (d.frontIdx + (d.cnt + U32 - 1) % U32) % d.capacity
    rw [u32_pred _ hs (by omega), hb1, ht]
    omega
  | pop_front d e hd hsz he ih =>
    intro hcap0
    obtain ⟨h1, h2, h3, h4, h5, h6, h7⟩ := reachGuarded_shape dtor d hd
    obtain ⟨hc, rfl⟩ := pop_front_inv he
    have hcap : d.capacity ≤ 2147483648 := hcap0
    have h3' : d.backIdx = (d.frontIdx + d.cnt) % d.capacity := ih hcap
    have hs : 0 < d.cnt := hsz
    obtain ⟨b, hb, hbc, hbv⟩ := ring_char d.capacity d.frontIdx d.cnt h5 h7
    obtain ⟨f1, hf1, hf1c, hf1v⟩ := next_char d.capacity d.frontIdx h5 h4
    obtain ⟨t, ht, htc, htv⟩ := ring_char d.capacity f1 (d.cnt - 1) hf1c (by omega)
    show d.backIdx
      = ((d.frontIdx + 1) % U32 % d.capacity + (d.cnt + U32 - 1) % U32) % d.capacity
    rw [u32_pred _ hs (by omega), hf1, ht]
    omega
  | clear d e hd he _ =>
    intro _
    obtain ⟨k1, k2, k3, k4, k5, k6⟩ := clear_inv he
    show e.backIdx = (e.frontIdx + e.cnt) % e.capacity
    rw [k3, k4, k5]
    simp

/-- The guarded regime on a capacity of at most `2^31`: the ring relation
holds and, on a non-empty buffer, `back()` reads the slot of
`operator[](size() - 1)`. -/
theorem guarded_ring [Inhabited T] (dtor : Bool) (d : deque T) (h : ReachGuarded dtor d)
    (hcap : d.capacity ≤ 2147483648) :
    Inv3 d ∧ (0 < d.size → ∃ x, d.back = some x ∧ d.index (d.size - 1) = some x) := by
  have h3 := reachGuarded_inv3 dtor d h hcap
  refine ⟨h3, fun hs => ?_⟩
  obtain ⟨h1, h2, hc1, h4, h5, h6, h7⟩ := reachGuarded_shape dtor d h
  have hc0 : d.capacity ≠ 0 := by omega
  have hs' : 0 < d.cnt := hs
  have h3' : d.backIdx = (d.frontIdx + d.cnt) % d.capacity := h3
  obtain ⟨b, hb, hbc, hbv⟩ := ring_char d.capacity d.frontIdx d.cnt h5 h7
  obtain ⟨j, hj, hjc, hjv⟩ :=
    prev_char d.capacity d.backIdx hc1 h6 h4 (by unfold U32; omega)
  obtain ⟨s, hs1, hsc, hsv⟩ := slot_char d.capacity d.frontIdx (d.cnt - 1) h5 (by omega) h4
  have hjs : j = s := by omega
  have hjA : j < d.A.length := by omega
  refine ⟨d.A[j], ?_, ?_⟩
  · simp only [back, prev, if_neg hc0, Option.some_bind]
    rw [hj, List.getElem?_eq_getElem hjA]
  · simp only [index, if_neg hc0, size]
    rw [hs1, ← hjs, List.getElem?_eq_getElem hjA]

/-- `pop_back` on explicit fields. -/
theorem pop_back_mk (m c b f n b1 n1 : Nat) (A : List T) (hc : c ≠ 0)
    (hb : (b + (c + U32 - 1) % U32) % U32 % c = b1) (hn : (n + U32 - 1) % U32 = n1) :
    (deque.mk m c A b f n).pop_back = some (deque.mk m c A b1 f n1) := by
  rw [pop_back_eq _ hc]
  subst hb hn
  rfl

/-- `push_back` on explicit fields. -/
theorem push_back_mk (m c b f n b1 n1 : Nat) (A : List T) (v : T) (hc : c ≠ 0)
    (hA : b < A.length) (hb : (b + 1) % U32 % c = b1)
    (hn : (if (n + 1) % U32 > c then c else (n + 1) % U32) = n1) :
    (deque.mk m c A b f n).push_back v = some (deque.mk m c (A.set b v) b1 f n1) := by
  rw [push_back_eq _ v hA hc]
  subst hb hn
  rfl

/-- A run of `push_back` that fits stays in the guarded regime. -/
theorem reachGuarded_fill [Inhabited T] (dtor : Bool) (c : Nat) (hc : c < U32) :
    ∀ (vs : List T) (n : Nat) (A : List T) (k : Nat), vs.length = n → A.length = c →
      k + n ≤ c →
      ReachGuarded dtor (deque.mk c c A (k % c) 0 k) →
      ReachGuarded dtor
        (deque.mk c c (A.take k ++ vs ++ A.drop (k + n)) ((k + n) % c) 0 (k + n)) := by
  intro vs
  induction vs with
  | nil =>
    intro n A k hn _ _ h
    simp only [List.length_nil] at hn
    subst hn
    simpa using h
  | cons v vs ih =>
    intro n A k hn hA hk h
    simp only [List.length_cons] at hn
    subst hn
    have hkc : k < c := by omega
    have hfull := pushAll_fill c c 0 hc (v :: vs) A k hA (by simpa using hk)
    have hone := pushAll_fill c c 0 hc [v] A k hA (by simpa using (by omega : k + 1 ≤ c))
    have hstep : push_back (deque.mk c c A (k % c) 0 k) v
        = some (deque.mk c c (A.take k ++ [v] ++ A.drop (k + 1)) ((k + 1) % c) 0 (k + 1)) := by
      simpa [pushAll] using hone
    have hA1 : (A.take k ++ [v] ++ A.drop (k + 1)).length = c := by
      simp [List.length_take, List.length_drop]
      omega
    have hrest := pushAll_fill c c 0 hc vs (A.take k ++ [v] ++ A.drop (k + 1)) (k + 1) hA1
      (by omega)
    have hreach := ih vs.length (A.take k ++ [v] ++ A.drop (k + 1)) (k + 1) rfl hA1 (by omega)
      (ReachGuarded.push_back _ _ v h hkc hstep)
    have heq : pushAll (deque.mk c c A (k % c) 0 k) (v :: vs)
        = pushAll (deque.mk c c (A.take k ++ [v] ++ A.drop (k + 1)) ((k + 1) % c) 0 (k + 1))
            vs := by
      simp only [pushAll, List.foldlM_cons]
      rw [hstep]
      rfl
    have hsame := Option.some.inj ((hfull.symm.trans heq).trans hrest)
    simp only [List.length_cons] at hsame
    rw [hsame]
    exact hreach

/-- Two numbers less than `c` apart have different remainders modulo `c`. -/
theorem mod_ne_of_lt (c k n : Nat) (h1 : k < n) (h2 : n < k + c) : n % c ≠ k % c := by
  intro h
  have h0 : (n - k) % c = 0 := Nat.sub_mod_eq_zero_of_mod_eq h
  rw [Nat.mod_eq_of_lt (by omega)] at h0
  omega

/-- Layout after `new(c)` and any run of `push_back`, for `c + 1 < 2^32`:
`frontIdx` stays 0, `backIdx` is the number of pushes modulo `c`, `cnt` is
capped at `c`, and each of the last `c` values sits at its push number modulo
`c`. -/
theorem pushAll_layout [Inhabited T] (c : Nat) (hc1 : 1 ≤ c) (hc : c + 1 < U32) :
    ∀ vs : List T, ∃ e, (new c).pushAll vs = some e ∧ e.maxCapacity = c ∧ e.capacity = c ∧
      e.A.length = c ∧ e.frontIdx = 0 ∧ e.backIdx = vs.length % c ∧
      e.cnt = min vs.length c ∧
      ∀ k, k < vs.length → vs.length ≤ k + c → e.A[k % c]? = vs[k]? := by
  intro vs
  induction vs using List.reverseRecOn with
  | nil =>
    refine ⟨new c, rfl, rfl, rfl, by simp [new], rfl, by simp [new], by simp [new], ?_⟩
    intro k hk
    simp at hk
  | append_singleton xs v ih =>
    obtain ⟨e, he, hm, hcap, hA, hf, hb, hcnt, hlay⟩ := ih
    have hc0 : e.capacity ≠ 0 := by omega
    have hblt : e.backIdx < e.A.length := by
      rw [hb, hA]
      exact Nat.mod_lt _ (by omega)
    have hpush := push_back_eq e v hblt hc0
    have hall : (new c).pushAll (xs ++ [v]) = e.push_back v := by
      simp only [pushAll, List.foldlM_append, List.foldlM_cons, List.foldlM_nil] at he ⊢
      rw [he]
      simp
    have hmin : min xs.length c ≤ c := Nat.min_le_right _ _
    have hcnt1 : (e.cnt + 1) % U32 = e.cnt + 1 := Nat.mod_eq_of_lt (by omega)
    have hb1 : (e.backIdx + 1) % U32 = e.backIdx + 1 :=
      Nat.mod_eq_of_lt (by have := Nat.mod_lt xs.length (by omega : c > 0); omega)
    refine ⟨_, hall.trans hpush, hm, hcap, by simpa using hA, hf, ?_, ?_, ?_⟩
    · show (e.backIdx + 1) % U32 % e.capacity = (xs ++ [v]).length % c
      rw [hb1, hb, hcap, Nat.mod_add_mod]
      simp
    · show (if (e.cnt + 1) % U32 > e.capacity then e.capacity else (e.cnt + 1) % U32)
        = min (xs ++ [v]).length c
      rw [hcnt1, hcnt, hcap]
      simp only [List.length_append, List.length_singleton, Nat.min_def]
      split <;> split <;> split <;> omega
    · intro k hk hkc
      simp only [List.length_append, List.length_singleton] at hk hkc
      show (e.A.set e.backIdx v)[k % c]? = (xs ++ [v])[k]?
      rw [hb]
      rcases Nat.lt_or_ge k xs.length with hlt | hge
      · rw [List.getElem?_set_ne (mod_ne_of_lt c k xs.length hlt (by omega)),
          hlay k hlt (by omega), List.getElem?_append_left hlt]
      · have hk' : k = xs.length := by omega
        subst hk'
        rw [List.getElem?_set_self (by rw [hA]; exact Nat.mod_lt _ (by omega))]
        simp

/-- The overwritten window after `new(c)` and `n >= c` calls of `push_back`,
for `c <= 2^31`: `frontIdx == 0`, `backIdx == n mod c`, `size() == c`, the last
`c` values sit in push order at offsets `backIdx + i` modulo `c`, and `back()`
reads the newest value. -/
theorem pushAll_window [Inhabited T] (c : Nat) (vs : List T) (hc1 : 1 ≤ c)
    (hcap : c ≤ 2147483648) (hn : c ≤ vs.length) :
    ∃ e, (new c).pushAll vs = some e ∧ e.frontIdx = 0 ∧ e.backIdx = vs.length % c ∧
      e.size = c ∧
      (∀ i, i < c → e.A[(e.backIdx + i) % c]? = vs[vs.length - c + i]?) ∧
      e.back = vs[vs.length - 1]? := by
  have hc32 : c < U32 := by unfold U32; omega
  obtain ⟨e, he, hm, hcp, hA, hf, hb, hcnt, hlay⟩ :=
    pushAll_layout c hc1 (by unfold U32; omega) vs
  have hc0 : e.capacity ≠ 0 := by omega
  refine ⟨e, he, hf, hb, ?_, ?_, ?_⟩
  · show e.cnt = c
    rw [hcnt]
    exact Nat.min_eq_right hn
  · intro i hi
    have h1 : (vs.length - c + i) % c = (e.backIdx + i) % c := by
      rw [hb, Nat.mod_add_mod]
      have : vs.length + i = vs.length - c + i + c := by omega
      rw [this, Nat.add_mod_right]
    rw [← h1]
    exact hlay _ (by omega) (by omega)
  · have hblt : e.backIdx < c := by
      rw [hb]
      exact Nat.mod_lt _ (by omega)
    obtain ⟨j, hj, hjc, hjv⟩ := prev_char c e.backIdx hc1 hblt hc32 (by unfold U32; omega)
    have hr : (vs.length - 1) % c < c := Nat.mod_lt _ (by omega)
    have hstep : vs.length % c = ((vs.length - 1) % c + 1) % c := by
      have hsucc : vs.length - 1 + 1 = vs.length := by omega
      rw [Nat.mod_add_mod, hsucc]
    rw [mod_lt_two ((vs.length - 1) % c + 1) c (by omega)] at hstep
    have hjr : j = (vs.length - 1) % c := by
      rw [hb] at hjv
      split at hstep <;> omega
    simp only [back, prev, if_neg hc0, Option.some_bind]
    rw [hcp, hj, hjr]
    exact hlay _ (by omega) (by omega)

/-- State after `new(c)`, `c` calls of `push_back` and one more. -/
theorem pushAll_full_plus_one [Inhabited T] (c : Nat) (hc1 : 1 ≤ c) (hc : c < U32)
    (xs : List T) (hx : xs.length = c) (v : T) :
    (new c).pushAll (xs ++ [v])
      = some (deque.mk c c (xs.set 0 v) (1 % U32 % c) 0
          (if (c + 1) % U32 > c then c else (c + 1) % U32)) := by
  have h := new_pushAll c xs hc (by omega)
  rw [hx, Nat.sub_self, Nat.mod_self] at h
  simp only [List.replicate_zero, List.append_nil] at h
  simp only [pushAll, List.foldlM_append, List.foldlM_cons, List.foldlM_nil] at h ⊢
  rw [h]
  simp only [Option.bind_eq_bind, Option.some_bind, bind_pure]
  exact push_back_mk c c 0 0 c _ _ xs v (by omega) (by omega) rfl rfl

/-! ## Properties of the operations -/

/-- C1 (overflow overwrite), the code at capacity 3 after `push_back` of
1, 2, 3, 4: `size() == 3` and `back() == 4`, but `frontIdx` is still 0, so
`front()` is 4 (the newest value, not 2) and `operator[](0..2)` reads 4, 2, 3
rather than 2, 3, 4. -/
theorem push_back_overflow_keeps_frontIdx :
    (new 3).pushAll [1, 2, 3, 4]
      = some { maxCapacity := 3, capacity := 3, A := [4, 2, 3], backIdx := 1, frontIdx := 0,
               cnt := 3 }
    ∧ ((new 3).pushAll [1, 2, 3, 4]).map size = some 3
    ∧ ((new 3).pushAll [1, 2, 3, 4]).bind back = some 4
    ∧ ((new 3).pushAll [1, 2, 3, 4]).bind front = some 4
    ∧ ((new 3).pushAll [1, 2, 3, 4]).map contents = some [some 4, some 2, some 3]
    ∧ ((new 3).pushAll [1, 2, 3, 4]).bind (drain 3) =
        some ([4, 2, 3], { maxCapacity := 3, capacity := 3, A := [4, 2, 3], backIdx := 1,
                           frontIdx := 0, cnt := 0 }) := by
  decide

/-- C2 (FIFO order): after `new(c)` and `push_back` of each element of a list
`vs` of length `n <= c`, the buffer holds `n` elements; `k <= n` rounds of
`front(); pop_front();` read the first `k` elements of `vs` in push order and
leave `size() == n - k`; `n` rounds read exactly `vs` and leave the buffer
empty. -/
theorem fifo_order [Inhabited T] (c : Nat) (vs : List T) (hc : c < U32)
    (hn : vs.length ≤ c) :
    ∃ d, (new c).pushAll vs = some d ∧ d.size = vs.length ∧
      (∀ k, k ≤ vs.length →
        ∃ dk, d.drain k = some (vs.take k, dk) ∧ dk.size = vs.length - k) ∧
      ∃ e, d.drain vs.length = some (vs, e) ∧ e.size = 0 ∧ e.empty = true := by
  refine ⟨_, new_pushAll c vs hc hn, rfl, ?_, ?_⟩
  · intro k hk
    have h := drain_read c c (vs.length % c) (vs ++ List.replicate (c - vs.length) default)
      (by simp; omega) hc k 0 vs.length (by omega) hk (by omega)
    rw [Nat.zero_mod] at h
    refine ⟨{ maxCapacity := c, capacity := c,
              A := vs ++ List.replicate (c - vs.length) default, backIdx := vs.length % c,
              frontIdx := (0 + k) % c, cnt := vs.length - k }, ?_, rfl⟩
    rw [h]
    simp [List.take_append_of_le_length hk]
  · have h := drain_read c c (vs.length % c) (vs ++ List.replicate (c - vs.length) default)
      (by simp; omega) hc vs.length 0 vs.length (by omega) (Nat.le_refl _) (by omega)
    rw [Nat.zero_mod] at h
    refine ⟨{ maxCapacity := c, capacity := c,
              A := vs ++ List.replicate (c - vs.length) default, backIdx := vs.length % c,
              frontIdx := (0 + vs.length) % c, cnt := vs.length - vs.length }, ?_, ?_, ?_⟩
    · rw [h]
      simp
    · simp [size]
    · simp [empty]

/-- FIFO order at capacity 3 with the values 1, 2, 3. -/
theorem fifo_order_witness :
    (3 < U32 ∧ [1, 2, 3].length ≤ 3) ∧
    ∃ d, (new 3).pushAll [1, 2, 3] = some d ∧ d.size = [1, 2, 3].length ∧
      (∀ k, k ≤ [1, 2, 3].length →
        ∃ dk, d.drain k = some ([1, 2, 3].take k, dk) ∧ dk.size = [1, 2, 3].length - k) ∧
      ∃ e, d.drain [1, 2, 3].length = some ([1, 2, 3], e) ∧ e.size = 0 ∧ e.empty = true :=
  ⟨by decide, fifo_order 3 [1, 2, 3] (by decide) (by decide)⟩

/-- C3 (reset_to is a hard reset), the code on the reallocating path: a buffer
built from {1, 2, 3} still reports `size() == 3` and `empty() == false` after
`reset_to(5)` (with `max_size() == 5`), on both branches of `clear`; the reusing
path `reset_to(2)` does give `size() == 0`. -/
theorem resetTo_grow_keeps_cnt :
    ∀ dtor : Bool,
      ((fromList dtor [1, 2, 3]).bind (resetTo dtor 5)).map size = some 3
      ∧ ((fromList dtor [1, 2, 3]).bind (resetTo dtor 5)).map empty = some false
      ∧ ((fromList dtor [1, 2, 3]).bind (resetTo dtor 5)).map max_size = some 5
      ∧ ((fromList dtor [1, 2, 3]).bind (resetTo dtor 2)).map size = some 0 := by
  decide

/-- C4 (checked access), the code at `i == size()`: `at(size())` never signals
the out-of-range error (the test is `idx > cnt`); on a buffer of capacity 3
holding the single value 1, `at(1)` returns the unused slot 1, and only
`at(2)` is rejected. -/
theorem at_accepts_size :
    (∀ d : deque Nat, d.at_ d.size ≠ some Access.out_of_range)
    ∧ ((new 3).pushAll [1]).bind (fun d => d.at_ d.size) = some (Access.ref 0)
    ∧ ((new 3).pushAll [1]).bind (fun d => d.at_ 1) = some (Access.ref 0)
    ∧ ((new 3).pushAll [1]).bind (fun d => d.at_ 2) = some Access.out_of_range := by
  refine ⟨?_, by decide, by decide, by decide⟩
  intro d h
  simp [at_, size] at h

/-- C5 (equality ignores capacity), the code on two buffers with the same
logical contents 2, 3: `a` is `new(2)` after `push_back` of 2, 3; `b` is `new(3)`
after `push_back` of 0, 1, 2, two `pop_front` and `push_back(3)` (so
`b.frontIdx == 2`).  `a == b` returns false and `b == a` returns true: the loop
reduces the other buffer's offset modulo the capacity of `*this`. -/
theorem eq_reduces_other_by_own_capacity :
    ((new 2).pushAll [2, 3]).map contents = some [some 2, some 3]
    ∧ (((((new 3).pushAll [0, 1, 2]).bind pop_front).bind pop_front).bind
        (fun d => d.push_back 3)).map contents = some [some 2, some 3]
    ∧ (((new 2).pushAll [2, 3]).bind fun a =>
        (((((new 3).pushAll [0, 1, 2]).bind pop_front).bind pop_front).bind
          (fun d => d.push_back 3)).bind fun b => a.eq b) = some false
    ∧ (((new 2).pushAll [2, 3]).bind fun a =>
        (((((new 3).pushAll [0, 1, 2]).bind pop_front).bind pop_front).bind
          (fun d => d.push_back 3)).bind fun b => b.eq a) = some true := by
  decide

/-- C6 (move empties the source), the code on a buffer built from {1, 2}: the
target receives the state of the source, and the source is left with
`size() == 0` and no storage but with `max_size() == 2` and `maxCapacity == 2`;
a later `reset_to(1)` on it reuses the missing storage, and `push_back` then
writes outside it.  For every source, `max_size()` after the move is the
capacity it had before. -/
theorem moveImpl_keeps_source_capacity :
    ∀ dtor : Bool,
      (fromList dtor [1, 2]).bind (move dtor)
        = some ({ maxCapacity := 2, capacity := 2, A := [1, 2], backIdx := 0, frontIdx := 0,
                  cnt := 2 },
                { maxCapacity := 2, capacity := 2, A := [], backIdx := 0, frontIdx := 0,
                  cnt := 0 })
      ∧ ((fromList dtor [1, 2]).bind (move dtor)).map (fun p => p.2.size) = some 0
      ∧ ((fromList dtor [1, 2]).bind (move dtor)).map (fun p => p.2.max_size) = some 2
      ∧ (((fromList dtor [1, 2]).bind (move dtor)).bind fun p =>
          (resetTo dtor 1 p.2).bind fun s => s.push_back 9) = none
      ∧ ∀ o : deque Nat, (move dtor o).map (fun p => p.2.max_size) = some o.capacity := by
  intro dtor
  refine ⟨by revert dtor; decide, by revert dtor; decide, by revert dtor; decide,
    by revert dtor; decide, ?_⟩
  intro o
  cases dtor <;> rfl

/-- C7 (copy), the code on a moved-from target: `b2` is `new(3)` after being
moved from (no storage, `maxCapacity == 3`), `b1` is built from {1, 2, 3}; the
copy assignment `b2 = b1` finds equal `maxCapacity`, allocates nothing and
writes `A[0]` outside the storage of `b2` (no result), while copy construction
from the same `b1` gives a buffer equal to `b1`.  Copy construction also has no
result for the full buffer of capacity `2^31 + 1` with `frontIdx == 2^31`, where
`frontIdx + cnt` wraps as a `uint32_t`. -/
theorem copyAssign_onto_moved_from :
    ∀ dtor : Bool,
      (move dtor (new 3)).map (fun p => p.2)
        = some { maxCapacity := 3, capacity := 3, A := ([] : List Nat), backIdx := 0,
                 frontIdx := 0, cnt := 0 }
      ∧ ((move dtor (new 3)).bind fun p =>
          (fromList dtor [1, 2, 3]).bind fun b1 => copyAssign dtor p.2 b1) = none
      ∧ ((fromList dtor [1, 2, 3]).bind fun b1 => copy dtor b1) = fromList dtor [1, 2, 3]
      ∧ ((fromList dtor [1, 2, 3]).bind fun b1 => (copy dtor b1).bind fun b2 => b1.eq b2)
          = some true
      ∧ copy dtor (deque.mk 2147483649 2147483649 (List.replicate 2147483649 0)
          2147483648 2147483648 2147483649) = none := by
  intro dtor
  refine ⟨by revert dtor; decide, by revert dtor; decide, by revert dtor; decide,
    by revert dtor; decide, ?_⟩
  exact copy_u32_wrap dtor _ (List.length_replicate _ _) (by decide) (by decide) (by decide)
    (by decide)

/-- C8 (iteration), the code on the full buffer built from {1, 2, 3}:
`size() == 3` and `operator[]` reads 1, 2, 3, but `begin()` and `end()` both
have index 0, so the traversal stops at its first test and visits no element,
whatever the bound on the number of steps. -/
theorem traverse_full_visits_nothing :
    ∀ dtor : Bool,
      (fromList dtor [1, 2, 3]).map size = some 3
      ∧ (fromList dtor [1, 2, 3]).map contents = some [some 1, some 2, some 3]
      ∧ (fromList dtor [1, 2, 3]).map (fun d => (d.begin_, d.end_)) = some (⟨0⟩, ⟨0⟩)
      ∧ ∀ fuel : Nat,
          ((fromList dtor [1, 2, 3]).bind fun d => d.traverse (fuel + 1) d.begin_) = some [] := by
  intro dtor
  refine ⟨by revert dtor; decide, by revert dtor; decide, by revert dtor; decide, ?_⟩
  intro fuel
  cases dtor <;> rfl

/-- C9 (construction from a sequence): for a non-empty list `vs` whose length
`n` is a `uint32_t`, `from(vs)` is the state of `new(n)` followed by
`push_back` of each element in order; it has `size() == n`, `max_size() == n`,
`front() == vs[0]`, `back() == vs[n-1]` and `operator[](i) == vs[i]` for every
`i < n`. -/
theorem fromList_eq_new_pushAll [Inhabited T] (dtor : Bool) (vs : List T) (hne : vs ≠ [])
    (hlen : vs.length < U32) :
    fromList dtor vs = (new vs.length).pushAll vs ∧
    ∃ d, fromList dtor vs = some d ∧ d.size = vs.length ∧ d.max_size = vs.length ∧
      d.front = some (vs.head hne) ∧ d.back = some (vs.getLast hne) ∧
      ∀ (i : Nat) (h : i < vs.length), d.index i = some vs[i] := by
  have hpos : 0 < vs.length := List.length_pos.mpr hne
  have hfrom : fromList dtor vs = (new vs.length).pushAll vs := by
    simp [fromList, resetTo, new, Nat.mod_eq_of_lt hlen, hpos]
  have hnew := new_pushAll vs.length vs hlen (Nat.le_refl _)
  simp only [Nat.sub_self, List.replicate_zero, List.append_nil, Nat.mod_self] at hnew
  refine ⟨hfrom, _, hfrom.trans hnew, rfl, rfl, ?_, ?_, ?_⟩
  · simp [front, List.getElem?_eq_getElem hpos, List.head_eq_getElem]
  · have hp : (vs.length + U32 - 1) % U32 = vs.length - 1 := u32_pred _ hpos hlen
    have hq : (vs.length - 1) % U32 = vs.length - 1 := Nat.mod_eq_of_lt (by omega)
    have hr : (vs.length - 1) % vs.length = vs.length - 1 := Nat.mod_eq_of_lt (by omega)
    have hlt : vs.length - 1 < vs.length := by omega
    simp only [back, prev, if_neg (Nat.pos_iff_ne_zero.mp hpos), Nat.zero_add, hp, hq, hr,
      Option.some_bind, List.getElem?_eq_getElem hlt, List.getLast_eq_getElem]
  · intro i h
    have hi : i % U64 = i := Nat.mod_eq_of_lt (by unfold U32 at hlen; unfold U64; omega)
    simp [index, Nat.pos_iff_ne_zero.mp hpos, hi, Nat.mod_eq_of_lt h, List.getElem?_eq_getElem h]

/-- Construction from the sequence 1, 2, 3. -/
theorem fromList_eq_new_pushAll_witness :
    fromList false [1, 2, 3] = (new 3).pushAll [1, 2, 3] ∧
    ∃ d, fromList false [1, 2, 3] = some d ∧ d.size = 3 ∧ d.max_size = 3 ∧
      d.front = some 1 ∧ d.back = some 3 ∧
      ∀ (i : Nat) (h : i < [1, 2, 3].length), d.index i = some [1, 2, 3][i] :=
  fromList_eq_new_pushAll false [1, 2, 3] (by decide) (by decide)

/-- C10 (clear restores full capacity): for a buffer state with
`frontIdx < capacity` whose live elements have slots in the backing store,
`clear()` returns on both of its branches with
`count == frontIdx == backIdx == 0` (`size() == 0`, `empty()`), `maxCapacity`
unchanged and `max_size() == maxCapacity`; and after `reset_to(k)` with
`k <= maxCapacity` (which leaves `max_size() == k`) a `clear()` gives
`max_size() == maxCapacity`. -/
theorem clear_restores_capacity [Inhabited T] (dtor : Bool) (d : deque T)
    (hf : d.frontIdx < d.capacity) (hs : 0 < d.cnt → d.capacity ≤ d.A.length) :
    (∃ e, clear dtor d = some e ∧ e.cnt = 0 ∧ e.frontIdx = 0 ∧ e.backIdx = 0 ∧
      e.size = 0 ∧ e.empty = true ∧ e.maxCapacity = d.maxCapacity ∧
      e.max_size = d.maxCapacity) ∧
    ∀ k, k ≤ d.maxCapacity →
      ∃ d1 d2, resetTo dtor k d = some d1 ∧ d1.max_size = k ∧
        clear dtor d1 = some d2 ∧ d2.max_size = d.maxCapacity := by
  have hclear : ∃ e, clear dtor d = some e ∧ e.cnt = 0 ∧ e.frontIdx = 0 ∧ e.backIdx = 0 ∧
      e.maxCapacity = d.maxCapacity ∧ e.capacity = d.maxCapacity := by
    cases dtor with
    | false => exact ⟨_, rfl, rfl, rfl, rfl, rfl, rfl⟩
    | true =>
      have hpre : d.cnt = 0 ∨ (d.frontIdx < d.capacity ∧ d.capacity ≤ d.A.length) := by
        rcases Nat.eq_zero_or_pos d.cnt with h | h
        · exact Or.inl h
        · exact Or.inr ⟨hf, hs h⟩
      obtain ⟨e, he, hm, hcnt⟩ := clearLoop_ok d.cnt d hpre
      refine ⟨{ e with frontIdx := 0, backIdx := 0, capacity := e.maxCapacity }, ?_,
        hcnt rfl, rfl, rfl, hm, hm⟩
      simp [clear, he]
  obtain ⟨e, he, hcnt, hfr, hbk, hmax, hcap⟩ := hclear
  refine ⟨⟨e, he, hcnt, hfr, hbk, hcnt, by simp [empty, hcnt], hmax, hcap⟩, ?_⟩
  intro k hk
  refine ⟨{ e with capacity := k },
    { e with frontIdx := 0, backIdx := 0, capacity := e.maxCapacity }, ?_, rfl,
    ?_, hmax⟩
  · simp [resetTo, Nat.not_lt.mpr hk, he]
  · cases dtor with
    | false => simp [clear, hcnt]
    | true => simp [clear, hcnt, clearLoop]

/-- The effect of `clear` on a wrapped buffer of capacity 3 holding two
elements, with allocation maximum 4. -/
theorem clear_restores_capacity_witness :
    (∃ e, clear true (deque.mk 4 3 [7, 0, 5, 0] 1 2 2) = some e ∧ e.cnt = 0 ∧ e.frontIdx = 0 ∧
      e.backIdx = 0 ∧ e.size = 0 ∧ e.empty = true ∧ e.maxCapacity = 4 ∧ e.max_size = 4) ∧
    ∀ k, k ≤ 4 →
      ∃ d1 d2, resetTo true k (deque.mk 4 3 [7, 0, 5, 0] 1 2 2) = some d1 ∧ d1.max_size = k ∧
        clear true d1 = some d2 ∧ d2.max_size = 4 :=
  clear_restores_capacity true (deque.mk 4 3 [7, 0, 5, 0] 1 2 2) (by decide) (by decide)

/-- C11 (invariant 1): `count <= capacity <= maxCapacity` holds after `new(n)`
and after `from(vs)`, and when it holds for a buffer `d` (and a source `o`) it
holds after every result of `push_back`, `push_front`, `pop_back` and
`pop_front` (the pops with `size() > 0`), `clear`, `reset_to(m)`, copy
construction and assignment, and move construction and assignment (for the
target and for the moved-from source); on a state within its index bounds the
mutators do have a result. -/
theorem inv1_preserved [Inhabited T] (dtor : Bool) (d o : deque T) (v : T) (n m : Nat)
    (hd : Inv1 d) (ho : Inv1 o) :
    Inv1 (new n : deque T) ∧
    (∀ vs : List T, vs.length < U32 → ∃ e, fromList dtor vs = some e ∧ Inv1 e) ∧
    (∀ e, d.push_back v = some e → Inv1 e) ∧
    (∀ e, d.push_front v = some e → Inv1 e) ∧
    (∀ e, 0 < d.size → d.pop_back = some e → Inv1 e) ∧
    (∀ e, 0 < d.size → d.pop_front = some e → Inv1 e) ∧
    (∀ e, clear dtor d = some e → Inv1 e) ∧
    (∀ e, resetTo dtor m d = some e → Inv1 e) ∧
    (∀ e, copy dtor o = some e → Inv1 e) ∧
    (∀ e, copyAssign dtor d o = some e → Inv1 e) ∧
    (∀ p, move dtor o = some p → Inv1 p.1 ∧ Inv1 p.2) ∧
    (∀ p, moveAssign dtor d o = some p → Inv1 p.1 ∧ Inv1 p.2) ∧
    (Bounds d →
      (d.push_back v).isSome ∧ (d.push_front v).isSome ∧ d.pop_back.isSome ∧
        d.pop_front.isSome ∧ (clear dtor d).isSome ∧ (resetTo dtor m d).isSome) := by
  obtain ⟨hd1, hd2⟩ := hd
  obtain ⟨ho1, ho2⟩ := ho
  have hcap : ∀ c k : Nat, (if (k + 1) % U32 > c then c else (k + 1) % U32) ≤ c := by
    intro c k
    split <;> omega
  have hpop : ∀ k c : Nat, 0 < k → k ≤ c → (k + U32 - 1) % U32 ≤ c := by
    intro k c h0 hk
    unfold U32
    omega
  refine ⟨⟨Nat.zero_le _, Nat.le_refl _⟩, ?_, ?_, ?_, ?_, ?_, ?_, ?_, ?_, ?_, ?_, ?_,
    ops_defined dtor d v m⟩
  · intro vs hlen
    by_cases hne : vs = []
    · subst hne
      refine ⟨{ maxCapacity := 0, capacity := 0, A := [], backIdx := 0, frontIdx := 0,
                cnt := 0 }, ?_, Nat.le_refl _, Nat.le_refl _⟩
      cases dtor <;> rfl
    · exact ⟨_, fromList_nonempty dtor vs hne hlen, Nat.le_refl _, Nat.le_refl _⟩
  · intro e h
    obtain ⟨_, _, rfl⟩ := push_back_inv h
    exact ⟨hcap _ _, hd2⟩
  · intro e h
    obtain ⟨_, _, rfl⟩ := push_front_inv h
    exact ⟨hcap _ _, hd2⟩
  · intro e hs h
    obtain ⟨_, rfl⟩ := pop_back_inv h
    exact ⟨hpop _ _ hs hd1, hd2⟩
  · intro e hs h
    obtain ⟨_, rfl⟩ := pop_front_inv h
    exact ⟨hpop _ _ hs hd1, hd2⟩
  · intro e h
    obtain ⟨h1, h2, _, _, h5, _⟩ := clear_inv h
    exact ⟨by rw [h5]; exact Nat.zero_le _, by rw [h1, h2]⟩
  · intro e h
    rcases resetTo_inv h with ⟨hm, rfl⟩ | ⟨hm, c, hc, rfl⟩
    · exact ⟨by show d.cnt ≤ m; omega, Nat.le_refl _⟩
    · obtain ⟨h1, _, _, _, h5, _⟩ := clear_inv hc
      exact ⟨by show c.cnt ≤ m; omega, by show m ≤ c.maxCapacity; omega⟩
  · intro e h
    obtain ⟨h1, h2, _, _, h5⟩ := copyImpl_inv h
    exact ⟨by rw [h5, h2]; exact ho1, by rw [h1, h2]; exact ho2⟩
  · intro e h
    obtain ⟨h1, h2, _, _, h5⟩ := copyImpl_inv h
    exact ⟨by rw [h5, h2]; exact ho1, by rw [h1, h2]; exact ho2⟩
  · intro p h
    obtain ⟨h1, h2⟩ := moveImpl_inv h
    rw [h1, h2]
    exact ⟨⟨ho1, ho2⟩, ⟨Nat.zero_le _, ho2⟩⟩
  · intro p h
    obtain ⟨h1, h2⟩ := moveImpl_inv h
    rw [h1, h2]
    exact ⟨⟨ho1, ho2⟩, ⟨Nat.zero_le _, ho2⟩⟩

/-- Invariant 1 around the wrapped sample buffer, with the full sample buffer
as the source of copies and moves. -/
theorem inv1_preserved_witness :
    (Inv1 wrapped3 ∧ Inv1 full2 ∧ Bounds wrapped3) ∧
    Inv1 (new 3 : deque Nat) ∧
    (∀ vs : List Nat, vs.length < U32 → ∃ e, fromList true vs = some e ∧ Inv1 e) ∧
    (∀ e, wrapped3.push_back 9 = some e → Inv1 e) ∧
    (∀ e, wrapped3.push_front 9 = some e → Inv1 e) ∧
    (∀ e, 0 < wrapped3.size → wrapped3.pop_back = some e → Inv1 e) ∧
    (∀ e, 0 < wrapped3.size → wrapped3.pop_front = some e → Inv1 e) ∧
    (∀ e, clear true wrapped3 = some e → Inv1 e) ∧
    (∀ e, resetTo true 6 wrapped3 = some e → Inv1 e) ∧
    (∀ e, copy true full2 = some e → Inv1 e) ∧
    (∀ e, copyAssign true wrapped3 full2 = some e → Inv1 e) ∧
    (∀ p, move true full2 = some p → Inv1 p.1 ∧ Inv1 p.2) ∧
    (∀ p, moveAssign true wrapped3 full2 = some p → Inv1 p.1 ∧ Inv1 p.2) ∧
    (Bounds wrapped3 →
      (wrapped3.push_back 9).isSome ∧ (wrapped3.push_front 9).isSome ∧
        wrapped3.pop_back.isSome ∧ wrapped3.pop_front.isSome ∧
        (clear true wrapped3).isSome ∧ (resetTo true 6 wrapped3).isSome) :=
  ⟨by decide, inv1_preserved true wrapped3 full2 9 3 6 (by decide) (by decide)⟩

/-- C12 (invariant 3), the code on a full buffer and on the growing path of
`resetTo`: `new(3)` after `push_back` of 1, 2, 3 satisfies
`backIdx == (frontIdx + count) mod capacity`; a fourth `push_back` gives
`backIdx == 1` with `frontIdx == 0`, `count == 3`; a `push_front` on the full
buffer gives `frontIdx == 2` with `backIdx == 0`, `count == 3`; and `resetTo(5)`
on the buffer built from {1, 2, 3} gives `backIdx == 0` with `frontIdx == 0`,
`count == 3`, `capacity == 5`.  The relation fails in all three. -/
theorem inv3_broken_by_full_push_and_grow :
    (∃ e, (new 3).pushAll [1, 2, 3] = some e ∧ Inv3 e)
    ∧ (∃ e, (new 3).pushAll [1, 2, 3, 4] = some e ∧
        e.backIdx = 1 ∧ e.frontIdx = 0 ∧ e.cnt = 3 ∧ e.capacity = 3 ∧ ¬ Inv3 e)
    ∧ (∃ e, ((new 3).pushAll [1, 2, 3]).bind (fun d => d.push_front 9) = some e ∧
        e.backIdx = 0 ∧ e.frontIdx = 2 ∧ e.cnt = 3 ∧ e.capacity = 3 ∧ ¬ Inv3 e)
    ∧ ∀ dtor : Bool,
        ∃ e, (fromList dtor [1, 2, 3]).bind (resetTo dtor 5) = some e ∧
          e.backIdx = 0 ∧ e.frontIdx = 0 ∧ e.cnt = 3 ∧ e.capacity = 5 ∧ ¬ Inv3 e := by
  refine ⟨⟨_, rfl, by decide⟩, ⟨_, rfl, by decide⟩, ⟨_, rfl, by decide⟩, ?_⟩
  intro dtor
  cases dtor
  · exact ⟨_, rfl, by decide⟩
  · exact ⟨_, rfl, by decide⟩

/-- C13 (invariant 4) fails for the assignments: copy-assigning or
move-assigning `new(3)` to a buffer made by `new(5)` leaves the target with
`maxCapacity == 3`, below the 5 it had. -/
theorem assign_lowers_maxCapacity :
    (∃ e, copyAssign false (new 5 : deque Nat) (new 3) = some e ∧ e.maxCapacity = 3 ∧
      ¬ (new 5 : deque Nat).maxCapacity ≤ e.maxCapacity)
    ∧ (∃ e, copyAssign true (new 5 : deque Nat) (new 3) = some e ∧ e.maxCapacity = 3 ∧
      ¬ (new 5 : deque Nat).maxCapacity ≤ e.maxCapacity)
    ∧ (∃ p, moveAssign false (new 5 : deque Nat) (new 3) = some p ∧ p.1.maxCapacity = 3 ∧
      ¬ (new 5 : deque Nat).maxCapacity ≤ p.1.maxCapacity)
    ∧ (∃ p, moveAssign true (new 5 : deque Nat) (new 3) = some p ∧ p.1.maxCapacity = 3 ∧
      ¬ (new 5 : deque Nat).maxCapacity ≤ p.1.maxCapacity) :=
  ⟨⟨_, rfl, rfl, by decide⟩, ⟨_, rfl, rfl, by decide⟩, ⟨_, rfl, rfl, by decide⟩,
    ⟨_, rfl, rfl, by decide⟩⟩

/-- C13 (invariant 4), amended: every result of `push_back`, `push_front`,
`pop_back`, `pop_front` and `clear` has the `maxCapacity` the buffer had, and
every result of `reset_to(m)` has the larger of that and `m`, so none of these
lowers it; every result of a copy assignment or a move assignment has the
`maxCapacity` of the source.  On a state within its index bounds the mutators
and the move assignment do have a result. -/
theorem maxCapacity_after [Inhabited T] (dtor : Bool) (d o : deque T) (v : T) (m : Nat) :
    (∀ e, d.push_back v = some e → e.maxCapacity = d.maxCapacity) ∧
    (∀ e, d.push_front v = some e → e.maxCapacity = d.maxCapacity) ∧
    (∀ e, d.pop_back = some e → e.maxCapacity = d.maxCapacity) ∧
    (∀ e, d.pop_front = some e → e.maxCapacity = d.maxCapacity) ∧
    (∀ e, clear dtor d = some e → e.maxCapacity = d.maxCapacity) ∧
    (∀ e, resetTo dtor m d = some e →
      e.maxCapacity = max d.maxCapacity m ∧ d.maxCapacity ≤ e.maxCapacity) ∧
    (∀ e, copyAssign dtor d o = some e → e.maxCapacity = o.maxCapacity) ∧
    (∀ p, moveAssign dtor d o = some p → p.1.maxCapacity = o.maxCapacity) ∧
    (Bounds d →
      (d.push_back v).isSome ∧ (d.push_front v).isSome ∧ d.pop_back.isSome ∧
        d.pop_front.isSome ∧ (clear dtor d).isSome ∧ (resetTo dtor m d).isSome ∧
        (moveAssign dtor d o).isSome) := by
  refine ⟨?_, ?_, ?_, ?_, ?_, ?_, ?_, ?_, ?_⟩
  · intro e h
    obtain ⟨_, _, rfl⟩ := push_back_inv h
    rfl
  · intro e h
    obtain ⟨_, _, rfl⟩ := push_front_inv h
    rfl
  · intro e h
    obtain ⟨_, rfl⟩ := pop_back_inv h
    rfl
  · intro e h
    obtain ⟨_, rfl⟩ := pop_front_inv h
    rfl
  · intro e h
    exact (clear_inv h).1
  · intro e h
    rcases resetTo_inv h with ⟨hm, rfl⟩ | ⟨hm, c, hc, rfl⟩
    · exact ⟨by show m = max d.maxCapacity m; omega, by show d.maxCapacity ≤ m; omega⟩
    · have h1 := (clear_inv hc).1
      exact ⟨by show c.maxCapacity = max d.maxCapacity m; omega,
        by show d.maxCapacity ≤ c.maxCapacity; omega⟩
  · intro e h
    exact (copyImpl_inv h).1
  · intro p h
    rw [(moveImpl_inv h).1]
  · intro hb
    obtain ⟨h1, h2, h3, h4, h5, h6⟩ := ops_defined dtor d v m hb
    refine ⟨h1, h2, h3, h4, h5, h6, ?_⟩
    obtain ⟨c, hc⟩ := Option.isSome_iff_exists.mp h5
    simp [moveAssign, moveImpl, hc]

/-- C14 (push_front), the code on a buffer of capacity `2^31 + 1` with
`frontIdx == 2^31`, store of `2^31 + 1` slots and `count == 0`: the buffer
meets the stated conditions, but `prev` adds `capacity - 1` as a `uint32_t`,
the sum `2^32` wraps to 0, and `push_front(7)` leaves `frontIdx == 0`, while
`(frontIdx + capacity - 1) mod capacity` is `2^31 - 1`. -/
theorem push_front_u32_wrap :
    ((1 : Nat) ≤ 2147483649 ∧ (2147483648 : Nat) < 2147483649 ∧ (0 : Nat) ≤ 2147483649) ∧
    (∃ e,
      (deque.mk 2147483649 2147483649 (List.replicate 2147483649 0) 2147483648 2147483648
          0).push_front 7 = some e ∧
      e.frontIdx = 0 ∧ e.size = 1) ∧
    (2147483648 + 2147483649 - 1) % 2147483649 = 2147483647 := by
  refine ⟨by decide, ⟨_, push_front_eq _ 7 (by decide) ?_, by decide, by decide⟩, by decide⟩
  rw [List.length_replicate]
  decide

/-- C15 (zero-capacity pushes) fails: on `new(0)`, and on `new(3)` after
`reset_to(0)`, `push_back(1)` and `push_front(1)` have no defined result. -/
theorem push_zero_capacity_no_result :
    (new 0 : deque Nat).push_back 1 = none
    ∧ (new 0 : deque Nat).push_front 1 = none
    ∧ ∀ dtor : Bool,
        (∃ z, resetTo dtor 0 (new 3 : deque Nat) = some z ∧ z.capacity = 0 ∧
          z.push_back 1 = none ∧ z.push_front 1 = none) := by
  refine ⟨by decide, by decide, ?_⟩
  intro dtor
  cases dtor
  · exact ⟨_, rfl, rfl, by decide, by decide⟩
  · exact ⟨_, rfl, rfl, by decide, by decide⟩

/-- C15 (zero-capacity pushes), amended: the code has no guard for
`capacity == 0`.  On such a buffer `next` and `prev` take a remainder by zero,
so `push_back(v)` and `push_front(v)` have no defined result (no state with
`count`, `frontIdx`, `backIdx` unchanged is produced); `new(0)` has an empty
backing store, so the write of `push_back` has no slot there, and every result
of `reset_to(0)` has `capacity == 0`. -/
theorem push_zero_capacity_undefined [Inhabited T] (dtor : Bool) (d s : deque T) (v : T)
    (h : d.capacity = 0) :
    d.push_back v = none ∧ d.push_front v = none ∧
    (∀ i, d.next i = none) ∧ (∀ i, d.prev i = none) ∧
    (new 0 : deque T).capacity = 0 ∧ (new 0 : deque T).A = [] ∧
    (∀ e, resetTo dtor 0 s = some e → e.capacity = 0) := by
  refine ⟨?_, ?_, ?_, ?_, rfl, rfl, ?_⟩
  · unfold push_back next
    split <;> simp [h]
  · simp [push_front, prev, h]
  · intro i
    simp [next, h]
  · intro i
    simp [prev, h]
  · intro e he
    rcases resetTo_inv he with ⟨_, rfl⟩ | ⟨_, c, _, rfl⟩ <;> rfl

/-- The zero-capacity buffer `new(0)`, with `new(3)` as the buffer reset to
capacity 0. -/
theorem push_zero_capacity_undefined_witness :
    (new 0 : deque Nat).capacity = 0 ∧
    ((new 0 : deque Nat).push_back 1 = none ∧ (new 0 : deque Nat).push_front 1 = none ∧
      (∀ i, (new 0 : deque Nat).next i = none) ∧ (∀ i, (new 0 : deque Nat).prev i = none) ∧
      (new 0 : deque Nat).capacity = 0 ∧ (new 0 : deque Nat).A = [] ∧
      (∀ e, resetTo true 0 (new 3 : deque Nat) = some e → e.capacity = 0)) :=
  ⟨rfl, push_zero_capacity_undefined true (new 0) (new 3) 1 rfl⟩

/-- C16 (index bounds): in every state reached from `new(n)`, `n >= 1`, by
`push_back`, `push_front`, `pop_back` and `pop_front` (with `size() > 0`),
`clear` and `reset_to(m)`, `m >= 1`: `frontIdx < capacity`,
`backIdx < capacity` and `capacity <= maxCapacity ==` length of the backing
store; the slot written by `push_back` (`backIdx`), the slot written by
`push_front` (`prev(frontIdx)`), the slot read by `front()` (`frontIdx`), by
`back()` (`prev(backIdx)`) and by `operator[](i)` for any `i` lie inside the
store, and each of these operations has a result. -/
theorem reach_bounds [Inhabited T] (dtor : Bool) (d : deque T) (h : Reach dtor d) :
    (d.frontIdx < d.capacity ∧ d.backIdx < d.capacity ∧ d.capacity ≤ d.maxCapacity ∧
      d.maxCapacity = d.A.length) ∧
    (d.backIdx < d.A.length ∧ ∀ v, (d.push_back v).isSome) ∧
    ((∃ j, d.prev d.frontIdx = some j ∧ j < d.A.length) ∧ ∀ v, (d.push_front v).isSome) ∧
    (d.frontIdx < d.A.length ∧ d.front.isSome) ∧
    ((∃ j, d.prev d.backIdx = some j ∧ j < d.A.length) ∧ d.back.isSome) ∧
    (∀ i, (d.frontIdx + i) % U64 % d.capacity < d.A.length ∧ (d.index i).isSome) := by
  have hB := reach_bounds_aux dtor d h
  obtain ⟨hf, hb, hcm, hmA⟩ := hB
  have hc0 : d.capacity ≠ 0 := by omega
  have hlt : ∀ x : Nat, x % d.capacity < d.A.length := fun x =>
    Nat.lt_of_lt_of_le (Nat.mod_lt _ (by omega)) (by omega)
  have hprev : ∀ x : Nat, ∃ j, d.prev x = some j ∧ j < d.A.length := fun x =>
    ⟨(x + (d.capacity + U32 - 1) % U32) % U32 % d.capacity, by simp only [prev, if_neg hc0],
      hlt _⟩
  refine ⟨⟨hf, hb, hcm, hmA⟩, ⟨by omega, fun v => ?_⟩, ⟨hprev _, fun v => ?_⟩,
    ⟨by omega, ?_⟩, ⟨hprev _, ?_⟩, fun i => ⟨hlt _, ?_⟩⟩
  · exact (ops_defined dtor d v 0 ⟨hf, hb, hcm, hmA⟩).1
  · exact (ops_defined dtor d v 0 ⟨hf, hb, hcm, hmA⟩).2.1
  · have : d.frontIdx < d.A.length := by omega
    simp [front, List.getElem?_eq_getElem this]
  · simp only [back, prev, if_neg hc0, Option.some_bind, List.getElem?_eq_getElem (hlt _),
      Option.isSome_some]
  · simp only [index, if_neg hc0, List.getElem?_eq_getElem (hlt _), Option.isSome_some]

/-- Index bounds in the state reached from `new(3)` by `push_back(1)`,
`push_front(2)` and `resetTo(5)`. -/
theorem reach_bounds_witness :
    Reach false grown5 ∧
    (grown5.frontIdx < grown5.capacity ∧ grown5.backIdx < grown5.capacity ∧
      grown5.capacity ≤ grown5.maxCapacity ∧ grown5.maxCapacity = grown5.A.length) ∧
    (grown5.backIdx < grown5.A.length ∧ ∀ v, (grown5.push_back v).isSome) ∧
    ((∃ j, grown5.prev grown5.frontIdx = some j ∧ j < grown5.A.length) ∧
      ∀ v, (grown5.push_front v).isSome) ∧
    (grown5.frontIdx < grown5.A.length ∧ grown5.front.isSome) ∧
    ((∃ j, grown5.prev grown5.backIdx = some j ∧ j < grown5.A.length) ∧ grown5.back.isSome) ∧
    (∀ i, (grown5.frontIdx + i) % U64 % grown5.capacity < grown5.A.length ∧
      (grown5.index i).isSome) :=
  have hR : Reach false grown5 :=
    Reach.resetTo (deque.mk 3 3 [1, 0, 2] 1 2 2) _ 5
      (Reach.push_front (deque.mk 3 3 [1, 0, 0] 1 0 1) _ 2
        (Reach.push_back (new 3) _ 1 (Reach.new 3 (by decide) (by decide)) (by decide))
        (by decide))
      (by decide) (by decide) (by decide)
  ⟨hR, reach_bounds false grown5 hR⟩

/-- C17 (the overwritten window), the code at the two ends of the `uint32_t`
range.  At capacity `2^32 - 1`, after `2^32` calls of `push_back`, `++cnt`
wraps to 0 and `size()` is 0, not the capacity.  At capacity `2^31 + 1`, after
`push_back` of 0, 1, ..., `2^32` (so `backIdx == 2^31`), `prev(backIdx)` wraps
to 0 and `back()` reads slot 0, which holds `2^31 + 1`, while the newest value
is `2^32`. -/
theorem push_back_window_u32_wrap :
    (∃ e, (new 4294967295).pushAll (List.replicate 4294967295 0 ++ [0]) = some e ∧
      e.capacity = 4294967295 ∧ e.frontIdx = 0 ∧ e.size = 0) ∧
    (∃ e, (new 2147483649).pushAll (List.range 4294967297) = some e ∧
      e.backIdx = 2147483648 ∧ e.back = some 2147483649 ∧
      (List.range 4294967297)[4294967296]? = some 4294967296) := by
  constructor
  · exact ⟨_, pushAll_full_plus_one 4294967295 (by decide) (by decide) _
      (List.length_replicate _ _) 0, rfl, rfl, by decide⟩
  · obtain ⟨e, he, hm, hcp, hA, hf, hb, hcnt, hlay⟩ :=
      pushAll_layout 2147483649 (by decide) (by decide) (List.range 4294967297)
    rw [List.length_range] at hb hlay
    have hb1 : e.backIdx = 2147483648 := by
      rw [hb]
    have hslot := hlay 2147483649 (by decide) (by decide)
    rw [Nat.mod_self, List.getElem?_range (by decide)] at hslot
    have hprev : (2147483648 + (2147483649 + U32 - 1) % U32) % U32 % 2147483649 = 0 := by
      decide
    refine ⟨e, he, hb1, ?_, List.getElem?_range (by decide)⟩
    simp only [back, prev]
    rw [hcp, hb1, if_neg (by decide), hprev]
    exact hslot

/-- C18 (push/pop round trip), the code on a buffer of capacity `2^31 + 1` with
`frontIdx == 0`, `backIdx == count == 2^31 - 1`: the buffer meets the stated
conditions (`backIdx == (frontIdx + count) mod capacity`, `frontIdx` and
`size()` below `capacity`), `push_back(7)` moves `backIdx` to `2^31`, and
`pop_back()` computes `prev(2^31)`, whose `uint32_t` sum `2^32` wraps, so
`backIdx` ends at 0 and not at `2^31 - 1`; `count` and `frontIdx` are
restored. -/
theorem round_trip_u32_wrap :
    (Inv3 (deque.mk 2147483649 2147483649 (List.replicate 2147483649 0) 2147483647 0
        2147483647)
      ∧ (0 : Nat) < 2147483649 ∧ (2147483647 : Nat) < 2147483649) ∧
    ∃ e1 e2,
      (deque.mk 2147483649 2147483649 (List.replicate 2147483649 0) 2147483647 0
          2147483647).push_back 7 = some e1 ∧
      e1.pop_back = some e2 ∧ e2.cnt = 2147483647 ∧ e2.frontIdx = 0 ∧ e2.backIdx = 0 := by
  refine ⟨⟨by decide, by decide, by decide⟩, _, _,
    push_back_mk _ _ _ _ _ 2147483648 2147483648 _ 7 (by decide)
      (by rw [List.length_replicate]; decide) (by decide) (by decide),
    pop_back_mk _ _ _ _ _ 0 2147483647 _ (by decide) (by decide) (by decide), rfl, rfl, rfl⟩

/-- C19 (no-overflow regime), the code from `new(2^31 + 1)`: after `2^31`
guarded calls of `push_back` (the buffer is not full) and one `pop_back`, the
state is in the regime, with `frontIdx == 0` and `count == 2^31 - 1`, but
`prev(2^31)` wrapped as a `uint32_t` and `backIdx` is 0, so
`backIdx == (frontIdx + count) mod capacity` fails. -/
theorem guarded_ring_u32_wrap :
    ∃ e : deque Nat, ReachGuarded false e ∧ e.capacity = 2147483649 ∧ e.frontIdx = 0 ∧
      e.cnt = 2147483647 ∧ e.backIdx = 0 ∧ ¬ Inv3 e := by
  have hfill := reachGuarded_fill false 2147483649 (by decide) (List.replicate 2147483648 0)
    2147483648 (List.replicate 2147483649 default) 0 (List.length_replicate _ _)
    (List.length_replicate _ _) (by decide)
    (ReachGuarded.new 2147483649 (by decide) (by decide))
  have hpop := pop_back_mk 2147483649 2147483649 ((0 + 2147483648) % 2147483649) 0
    (0 + 2147483648) 0 2147483647
    (List.take 0 (List.replicate 2147483649 (default : Nat)) ++ List.replicate 2147483648 0 ++
      List.drop (0 + 2147483648) (List.replicate 2147483649 default))
    (by decide) (by decide) (by decide)
  exact ⟨_, ReachGuarded.pop_back _ _ hfill (by decide) hpop, rfl, rfl, rfl, rfl, by decide⟩

/-- C20 (iterator arithmetic), the code at capacity 3, `idx == 0`, `n == 2`:
`it + 2` has index 2, as claimed, but `it - 2` has index 2 (not
`(0 + 3 - 2) mod 3 == 1`) and `(it + 2) - 2` has index 1 (not 0); `operator-`
does not read `n`, it steps back one position whatever `n` is. -/
theorem iterator_sub_ignores_n :
    iterator.add (new 3 : deque Nat) ⟨0⟩ 2 = some ⟨2⟩
    ∧ iterator.sub (new 3 : deque Nat) ⟨0⟩ 2 = some ⟨2⟩
    ∧ (iterator.add (new 3 : deque Nat) ⟨0⟩ 2).bind (fun it => iterator.sub (new 3 : deque Nat) it 2)
        = some ⟨1⟩
    ∧ iterator.sub (new 3 : deque Nat) ⟨0⟩ 0 = some ⟨2⟩
    ∧ ∀ (c : deque Nat) (it : iterator) (n : Int),
        iterator.sub c it n = iterator.sub c it 1 := by
  refine ⟨by decide, by decide, by decide, by decide, ?_⟩
  intro c it n
  rfl

end deque

end Switch
